import Mathlib

set_option linter.unusedSectionVars false

/- Shallow embedding of the windowed transaction graph of src/src/graph.py
(classes Edge, Node, EdgeList, TxGraph).  The sortedcontainers SortedDict
values are modelled by association lists kept sorted on their keys, the
in-place mutation by explicit state passing, and Python exceptions by
Except values whose error carries the state at the moment of the raise. -/

deriving instance DecidableEq for Except

namespace Insight

/- Python compares strings lexicographically by code point; the
comparison is rebuilt here on String.data so that it evaluates by
kernel reduction. -/
def charsLt : List Char → List Char → Bool
  | [], [] => false
  | [], _ :: _ => true
  | _ :: _, [] => false
  | c :: cs, d :: ds =>
    if c.toNat < d.toNat then true
    else if d.toNat < c.toNat then false
    else charsLt cs ds

def strLt (a b : String) : Bool := charsLt a.data b.data

def intLt (a b : Int) : Bool := decide (a < b)

namespace OMap

/- dict.get(key, None) -/
def lookup {α β : Type} [DecidableEq α] (k : α) : List (α × β) → Option β
  | [] => none
  | p :: rest => if k = p.1 then some p.2 else lookup k rest

/- dict[key] = value on a SortedDict: the list stays sorted on its keys
in the order given by lt -/
def insert {α β : Type} [DecidableEq α] (lt : α → α → Bool) (k : α) (v : β) :
    List (α × β) → List (α × β)
  | [] => [(k, v)]
  | p :: rest =>
    if lt k p.1 then (k, v) :: p :: rest
    else if k = p.1 then (k, v) :: rest
    else p :: insert lt k v rest

def erase {α β : Type} [DecidableEq α] (k : α) : List (α × β) → List (α × β)
  | [] => []
  | p :: rest => if k = p.1 then rest else p :: erase k rest

/- del dict[key]: raises (returns none) when the key is absent -/
def del {α β : Type} [DecidableEq α] (k : α) (m : List (α × β)) : Option (List (α × β)) :=
  if (lookup k m).isSome then some (erase k m) else none

end OMap

/- class Edge of graph.py -/
structure Edge where
  tstamp : Int
  source : String
  target : String
  name : String
deriving DecidableEq, Repr

def Edge.derive_name (node1 node2 : String) : String :=
  if strLt node1 node2 then node1 ++ ":" ++ node2 else node2 ++ ":" ++ node1

/- Edge.__init__ : lexicographically smaller endpoint becomes source -/
def Edge.make (tstamp : Int) (node1 node2 : String) : Edge :=
  if strLt node1 node2 then
    { tstamp := tstamp, source := node1, target := node2,
      name := Edge.derive_name node1 node2 }
  else
    { tstamp := tstamp, source := node2, target := node1,
      name := Edge.derive_name node1 node2 }

/- class Node of graph.py -/
structure Node where
  name : String
  degree : Int
deriving DecidableEq, Repr

/- class EdgeList of graph.py : all edges carrying one timestamp -/
structure EdgeList where
  tstamp : Int
  edges : List (String × Edge)
deriving DecidableEq, Repr

/- The exceptions graph.py can raise.  invalidNode and sameNode are the
two validation raises at the top of process_transaction (the spec's
InvalidInput); emptyDegreeList is the raise in __calculate_median (the
spec's EmptyDegreeSet); keyError and attributeError stand for the Python
KeyError of del on a missing key / indexing a missing key, and the
AttributeError of using a None lookup result. -/
inductive PErr
  | invalidNode
  | sameNode
  | emptyDegreeList
  | keyError
  | attributeError
deriving DecidableEq, Repr

/- class TxGraph of graph.py -/
structure TxGraph where
  median : Rat
  highMarker : Int
  lowMarker : Int
  txMap : List (Int × EdgeList)
  edgeMap : List (String × Edge)
  nodeMap : List (String × Node)
deriving DecidableEq, Repr

def TxGraph.WINDOW_SIZE : Int := 60

/- TxGraph.__init__ -/
def TxGraph.init : TxGraph :=
  { median := 0, highMarker := TxGraph.WINDOW_SIZE, lowMarker := 1,
    txMap := [], edgeMap := [], nodeMap := [] }

/- SortedList.add of sortedcontainers: insert keeping the list sorted -/
def sortedAdd (d : Int) : List Int → List Int
  | [] => [d]
  | x :: xs => if d ≤ x then d :: x :: xs else x :: sortedAdd d xs

/- the degreeList built by __calculate_median: every strictly positive
degree of nodeMap, collected into a sorted list -/
def buildDegreeList (nodeMap : List (String × Node)) : List Int :=
  nodeMap.foldl (fun acc r => if 0 < r.2.degree then sortedAdd r.2.degree acc else acc) []

/- TxGraph.__calculate_median.  listLen/2 is Python 2 integer division;
the float mean (x + y) / 2.0 is the exact rational mkRat (x + y) 2
(mkRat n 2 = n / 2, stated in mkRat_two_eq_div below; mkRat is used in
the definition so that it evaluates by kernel reduction). -/
def TxGraph.calculate_median (g : TxGraph) : Except PErr Rat :=
  let degreeList := buildDegreeList g.nodeMap
  let listLen := degreeList.length
  if listLen = 0 then .error .emptyDegreeList
  else if listLen = 1 then .ok ((degreeList.getD 0 0 : Int) : Rat)
  else if listLen % 2 = 0 then
    .ok (mkRat (degreeList.getD (listLen / 2) 0 + degreeList.getD (listLen / 2 - 1) 0) 2)
  else .ok ((degreeList.getD (listLen / 2) 0 : Int) : Rat)

/- TxGraph.__get_edgelist with create=True.  The returned EdgeList is
aliased with the txMap entry in Python; callers that mutate it write it
back into txMap explicitly here. -/
def TxGraph.get_edgelist (g : TxGraph) (tstamp : Int) : EdgeList × TxGraph :=
  match OMap.lookup tstamp g.txMap with
  | some el => (el, g)
  | none =>
    let el : EdgeList := { tstamp := tstamp, edges := [] }
    (el, { g with txMap := OMap.insert intLt tstamp el g.txMap })

/- TxGraph.__getnode_with_name with create=True -/
def TxGraph.getnode_with_name (g : TxGraph) (name : String) : Node × TxGraph :=
  match OMap.lookup name g.nodeMap with
  | some node => (node, g)
  | none =>
    let node : Node := { name := name, degree := 0 }
    (node, { g with nodeMap := OMap.insert strLt name node g.nodeMap })

/- TxGraph.__incr_degree_of_edge_nodes; node.incr_degree() mutates the
node held in nodeMap, hence the write-back inserts. -/
def TxGraph.incr_degree_of_edge_nodes (g : TxGraph) (edge : Edge) : TxGraph :=
  let p1 := g.getnode_with_name edge.source
  let g1 := { p1.2 with
    nodeMap := OMap.insert strLt edge.source { p1.1 with degree := p1.1.degree + 1 } p1.2.nodeMap }
  let p2 := g1.getnode_with_name edge.target
  { p2.2 with
    nodeMap := OMap.insert strLt edge.target { p2.1 with degree := p2.1.degree + 1 } p2.2.nodeMap }

/- TxGraph.__decr_degree_of_node: create=False, so a missing node is a
None whose decr_degree() raises AttributeError; the del uses node.name
and raises KeyError when that key is missing. -/
def TxGraph.decr_degree_of_node (g : TxGraph) (name : String) : Except (PErr × TxGraph) TxGraph :=
  match OMap.lookup name g.nodeMap with
  | none => .error (.attributeError, g)
  | some node =>
    let node1 : Node := { node with degree := node.degree - 1 }
    let g1 := { g with nodeMap := OMap.insert strLt name node1 g.nodeMap }
    if node1.degree = 0 then
      match OMap.del node1.name g1.nodeMap with
      | none => .error (.keyError, g1)
      | some nm => .ok { g1 with nodeMap := nm }
    else .ok g1

/- TxGraph.__decr_degree_of_edge_nodes -/
def TxGraph.decr_degree_of_edge_nodes (g : TxGraph) (edge : Edge) : Except (PErr × TxGraph) TxGraph :=
  match g.decr_degree_of_node edge.source with
  | .error e => .error e
  | .ok g1 => g1.decr_degree_of_node edge.target

/- TxGraph.__remove_edge -/
def TxGraph.remove_edge (g : TxGraph) (edge : Edge) : Except (PErr × TxGraph) TxGraph :=
  match g.decr_degree_of_edge_nodes edge with
  | .error e => .error e
  | .ok g1 =>
    match OMap.del edge.name g1.edgeMap with
    | none => .error (.keyError, g1)
    | some em => .ok { g1 with edgeMap := em }

/- TxGraph.__update_tstamp_for_existing_edge.  The Python `if not
currEdge: return` guard is dead code (an Edge instance is always truthy)
and is omitted; self.edgeMap[edgeName] raising KeyError on a missing key
is the first error case.  Mutating currEdge.tstamp in place updates the
object aliased from edgeMap, hence the write-back insert on edgeName. -/
def TxGraph.update_tstamp_for_existing_edge (g : TxGraph) (edgeName : String) (tstamp : Int) :
    Except (PErr × TxGraph) TxGraph :=
  match OMap.lookup edgeName g.edgeMap with
  | none => .error (.keyError, g)
  | some currEdge =>
    if tstamp ≤ currEdge.tstamp then .ok g
    else
      match OMap.lookup currEdge.tstamp g.txMap with
      | none => .error (.attributeError, g)
      | some el =>
        match OMap.del currEdge.name el.edges with
        | none => .error (.keyError, g)
        | some edges1 =>
          let g1 := { g with
            txMap := OMap.insert intLt currEdge.tstamp { el with edges := edges1 } g.txMap }
          let movedEdge : Edge := { currEdge with tstamp := tstamp }
          let g2 := { g1 with edgeMap := OMap.insert strLt edgeName movedEdge g1.edgeMap }
          let p := g2.get_edgelist tstamp
          let el2 := { p.1 with edges := OMap.insert strLt movedEdge.name movedEdge p.1.edges }
          .ok { p.2 with txMap := OMap.insert intLt tstamp el2 p.2.txMap }

/- the inner loop of __update_tx_window: remove every edge of one
EdgeList (in name order, the SortedDict iteration order) -/
def TxGraph.remove_edges (g : TxGraph) : List (String × Edge) → Except (PErr × TxGraph) TxGraph
  | [] => .ok g
  | q :: rest =>
    match g.remove_edge q.2 with
    | .error e => .error e
    | .ok g1 => g1.remove_edges rest

/- the outer loop of __update_tx_window over the stale EdgeLists, in
timestamp order -/
def TxGraph.evict_buckets (g : TxGraph) : List (Int × EdgeList) → Except (PErr × TxGraph) TxGraph
  | [] => .ok g
  | p :: rest =>
    match g.remove_edges p.2.edges with
    | .error e => .error e
    | .ok g1 => g1.evict_buckets rest

/- TxGraph.__update_tx_window.  irange(None, lowMarker, inclusive=(True,
False)) iterates the keys < lowMarker in order; lastTStamp is the last
such key; `if lastTStamp:` is Python falsiness, so a lastTStamp of 0
skips the deletion; del txMap.iloc[:lowIdx+1] removes every key ≤
lastTStamp from the sorted map. -/
def TxGraph.update_tx_window (g : TxGraph) : Except (PErr × TxGraph) TxGraph :=
  let stale := g.txMap.filter (fun p => decide (p.1 < g.lowMarker))
  match g.evict_buckets stale with
  | .error e => .error e
  | .ok g1 =>
    match (stale.map Prod.fst).getLast? with
    | none => .ok g1
    | some lastTStamp =>
      if lastTStamp = 0 then .ok g1
      else .ok { g1 with txMap := g1.txMap.filter (fun p => decide (lastTStamp < p.1)) }

/- the new-edge block of process_transaction, duplicated verbatim in its
two branches: register the edge in its EdgeList and in edgeMap, then
bump both endpoint degrees -/
def TxGraph.insert_new_edge (g : TxGraph) (tstamp : Int) (newEdge : Edge) : TxGraph :=
  let p := g.get_edgelist tstamp
  let el := { p.1 with edges := OMap.insert strLt newEdge.name newEdge p.1.edges }
  let g1 := { p.2 with txMap := OMap.insert intLt tstamp el p.2.txMap }
  let g2 := { g1 with edgeMap := OMap.insert strLt newEdge.name newEdge g1.edgeMap }
  g2.incr_degree_of_edge_nodes newEdge

/- TxGraph.process_transaction.  source/target are Options so that the
`is None` check is representable; a raise returns the state reached at
the moment of the raise. -/
def TxGraph.process_transaction (g : TxGraph) (tstamp : Int) (source target : Option String) :
    Except (PErr × TxGraph) TxGraph :=
  match source, target with
  | none, _ => .error (.invalidNode, g)
  | some _, none => .error (.invalidNode, g)
  | some source, some target =>
    if source.length = 0 ∨ target.length = 0 then .error (.invalidNode, g)
    else if source = target then .error (.sameNode, g)
    else if tstamp < g.lowMarker then .ok g
    else
      let newEdge := Edge.make tstamp source target
      if tstamp ≤ g.highMarker then
        if (OMap.lookup newEdge.name g.edgeMap).isSome then
          g.update_tstamp_for_existing_edge newEdge.name tstamp
        else
          let g1 := g.insert_new_edge tstamp newEdge
          match g1.calculate_median with
          | .error e => .error (e, g1)
          | .ok m => .ok { g1 with median := m }
      else
        let g0 := { g with highMarker := tstamp,
                           lowMarker := tstamp - TxGraph.WINDOW_SIZE + 1 }
        match g0.update_tx_window with
        | .error e => .error e
        | .ok g1 =>
          match (if (OMap.lookup newEdge.name g1.edgeMap).isSome then
                   g1.update_tstamp_for_existing_edge newEdge.name tstamp
                 else .ok (g1.insert_new_edge tstamp newEdge)) with
          | .error e => .error e
          | .ok g2 =>
            match g2.calculate_median with
            | .error e => .error (e, g2)
            | .ok m => .ok { g2 with median := m }

/- states reachable from the fresh graph by successful calls -/
inductive Reachable : TxGraph → Prop
  | init : Reachable TxGraph.init
  | step (g g' : TxGraph) (t : Int) (a b : Option String) :
      Reachable g → g.process_transaction t a b = .ok g' → Reachable g'


/- bridge between the executable comparisons and the ambient orders -/

theorem char_eq_of_toNat_eq {c d : Char} (h : c.toNat = d.toNat) : c = d := by
  have hv : c.val = d.val := UInt32.toNat.inj h
  exact Char.eq_of_val_eq hv

theorem charsLt_iff : ∀ cs ds : List Char, charsLt cs ds = true ↔ cs < ds
  | [], [] => by
    simp only [charsLt]
    constructor
    · intro h; cases h
    · intro h; cases h
  | [], d :: ds => by
    simp only [charsLt]
    exact ⟨fun _ => List.Lex.nil, fun _ => trivial⟩
  | c :: cs, [] => by
    simp only [charsLt]
    constructor
    · intro h; cases h
    · intro h; cases h
  | c :: cs, d :: ds => by
    simp only [charsLt]
    by_cases h1 : c.toNat < d.toNat
    · simp only [h1, if_true]
      exact ⟨fun _ => List.Lex.rel h1, fun _ => trivial⟩
    · by_cases h2 : d.toNat < c.toNat
      · simp only [h1, h2, if_false, if_true]
        constructor
        · intro h; cases h
        · intro h
          cases h with
          | rel hcd => exact absurd hcd h1
          | cons _ => exact absurd h2 (Nat.lt_irrefl _)
      · simp only [h1, h2, if_false]
        have hcd : c = d :=
          char_eq_of_toNat_eq (Nat.le_antisymm (Nat.not_lt.mp h2) (Nat.not_lt.mp h1))
        subst hcd
        rw [charsLt_iff cs ds]
        constructor
        · intro h; exact List.Lex.cons h
        · intro h
          cases h with
          | rel hcd => exact absurd hcd h1
          | cons htl => exact htl

theorem strLt_iff (a b : String) : strLt a b = true ↔ a < b := by
  rw [strLt, charsLt_iff, String.lt_iff_toList_lt]
  exact Iff.rfl

theorem intLt_iff (a b : Int) : intLt a b = true ↔ a < b := by
  simp [intLt]


namespace OMap

section BasicLemmas

variable {α β : Type} [DecidableEq α]

/- strict sortedness on keys, the SortedDict representation invariant -/
def KSorted [LT α] (m : List (α × β)) : Prop := m.Pairwise (fun p q => p.1 < q.1)

/- pairwise distinct keys -/
def KNodup (m : List (α × β)) : Prop := m.Pairwise (fun p q => p.1 ≠ q.1)

theorem KSorted.knodup [Preorder α] {m : List (α × β)} (h : KSorted m) : KNodup m :=
  h.imp (fun hlt => ne_of_lt hlt)

theorem mem_of_lookup_eq_some {k : α} {v : β} :
    ∀ {m : List (α × β)}, lookup k m = some v → (k, v) ∈ m := by
  intro m
  induction m with
  | nil => intro h; cases h
  | cons p rest ih =>
    intro h
    simp only [lookup] at h
    by_cases hk : k = p.1
    · cases hk
      rw [if_pos rfl] at h
      cases h
      exact List.mem_cons_self _ _
    · rw [if_neg hk] at h
      exact List.mem_cons_of_mem _ (ih h)

theorem lookup_eq_none_iff {k : α} :
    ∀ {m : List (α × β)}, lookup k m = none ↔ k ∉ m.map Prod.fst := by
  intro m
  induction m with
  | nil => simp [lookup]
  | cons p rest ih =>
    by_cases hk : k = p.1
    · simp [lookup, hk]
    · simp [lookup, hk, ih]

theorem lookup_isSome_iff {k : α} {m : List (α × β)} :
    (lookup k m).isSome = true ↔ k ∈ m.map Prod.fst := by
  rcases h : lookup k m with _ | v
  · simp only [Option.isSome_none, Bool.false_eq_true, false_iff]
    exact lookup_eq_none_iff.mp h
  · simp only [Option.isSome_some, true_iff]
    by_contra hk
    rw [lookup_eq_none_iff.mpr hk] at h
    cases h

theorem lookup_insert_self (lt : α → α → Bool) (k : α) (v : β) :
    ∀ m : List (α × β), lookup k (insert lt k v m) = some v := by
  intro m
  induction m with
  | nil => simp [insert, lookup]
  | cons p rest ih =>
    simp only [insert]
    by_cases h1 : lt k p.1
    · rw [if_pos h1]
      simp [lookup]
    · by_cases h2 : k = p.1
      · rw [if_neg h1, if_pos h2]
        simp [lookup]
      · rw [if_neg h1, if_neg h2]
        simp [lookup, h2, ih]

theorem lookup_insert_ne (lt : α → α → Bool) {j k : α} (v : β) (hjk : j ≠ k) :
    ∀ m : List (α × β), lookup j (insert lt k v m) = lookup j m := by
  intro m
  induction m with
  | nil => simp [insert, lookup, hjk]
  | cons p rest ih =>
    simp only [insert]
    by_cases h1 : lt k p.1
    · rw [if_pos h1]
      simp [lookup, hjk]
    · by_cases h2 : k = p.1
      · have h3 : j ≠ p.1 := fun hc => hjk (hc.trans h2.symm)
        rw [if_neg h1, if_pos h2]
        simp [lookup, hjk, h3, h2]
      · rw [if_neg h1, if_neg h2]
        simp [lookup, ih]

theorem erase_sublist (k : α) : ∀ m : List (α × β), (erase k m).Sublist m := by
  intro m
  induction m with
  | nil => simp [erase]
  | cons p rest ih =>
    simp only [erase]
    by_cases h : k = p.1
    · rw [if_pos h]
      exact List.sublist_cons_self p rest
    · rw [if_neg h]
      exact ih.cons₂ p

theorem lookup_erase_ne {j k : α} (hjk : j ≠ k) :
    ∀ m : List (α × β), lookup j (erase k m) = lookup j m := by
  intro m
  induction m with
  | nil => simp [erase]
  | cons p rest ih =>
    simp only [erase]
    by_cases h : k = p.1
    · rw [if_pos h]
      have h3 : j ≠ p.1 := fun hc => hjk (hc.trans h.symm)
      simp [lookup, h3]
    · rw [if_neg h]
      simp [lookup, ih]

theorem lookup_erase_self {k : α} :
    ∀ {m : List (α × β)}, KNodup m → lookup k (erase k m) = none := by
  intro m
  induction m with
  | nil => intro _; simp [erase, lookup]
  | cons p rest ih =>
    intro hnd
    have hnd' := List.pairwise_cons.mp hnd
    simp only [erase]
    by_cases h : k = p.1
    · rw [if_pos h]
      rw [lookup_eq_none_iff]
      cases h
      intro hmem
      rcases List.mem_map.mp hmem with ⟨q, hq, hq1⟩
      exact (hnd'.1 q hq) hq1.symm
    · rw [if_neg h]
      simp [lookup, h, ih hnd'.2]

theorem mem_insert_self (lt : α → α → Bool) (k : α) (v : β) :
    ∀ m : List (α × β), (k, v) ∈ insert lt k v m := by
  intro m
  induction m with
  | nil => simp [insert]
  | cons p rest ih =>
    simp only [insert]
    by_cases h1 : lt k p.1
    · rw [if_pos h1]
      exact List.mem_cons_self _ _
    · by_cases h2 : k = p.1
      · rw [if_neg h1, if_pos h2]
        exact List.mem_cons_self _ _
      · rw [if_neg h1, if_neg h2]
        exact List.mem_cons_of_mem _ ih

theorem mem_insert_of_mem (lt : α → α → Bool) {q : α × β} (k : α) (v : β)
    (hq1 : q.1 ≠ k) : ∀ {m : List (α × β)}, q ∈ m → q ∈ insert lt k v m := by
  intro m
  induction m with
  | nil => intro h; cases h
  | cons p rest ih =>
    intro hq
    simp only [insert]
    by_cases h1 : lt k p.1
    · rw [if_pos h1]
      exact List.mem_cons_of_mem _ hq
    · by_cases h2 : k = p.1
      · rw [if_neg h1, if_pos h2]
        rcases List.mem_cons.mp hq with h | h
        · exfalso
          apply hq1
          rw [h, h2]
        · exact List.mem_cons_of_mem _ h
      · rw [if_neg h1, if_neg h2]
        rcases List.mem_cons.mp hq with h | h
        · exact h ▸ List.mem_cons_self p _
        · exact List.mem_cons_of_mem _ (ih h)

theorem eq_or_mem_of_mem_insert {lt : α → α → Bool} {q : α × β} {k : α} {v : β} :
    ∀ {m : List (α × β)}, q ∈ insert lt k v m → q = (k, v) ∨ q ∈ m := by
  intro m
  induction m with
  | nil =>
    intro h
    simp only [insert] at h
    rcases List.mem_cons.mp h with h | h
    · exact Or.inl h
    · cases h
  | cons p rest ih =>
    intro hq
    simp only [insert] at hq
    by_cases h1 : lt k p.1
    · rw [if_pos h1] at hq
      rcases List.mem_cons.mp hq with h | h
      · exact Or.inl h
      · exact Or.inr h
    · by_cases h2 : k = p.1
      · rw [if_neg h1, if_pos h2] at hq
        rcases List.mem_cons.mp hq with h | h
        · exact Or.inl h
        · exact Or.inr (List.mem_cons_of_mem _ h)
      · rw [if_neg h1, if_neg h2] at hq
        rcases List.mem_cons.mp hq with h | h
        · exact Or.inr (h ▸ List.mem_cons_self p _)
        · rcases ih h with h' | h'
          · exact Or.inl h'
          · exact Or.inr (List.mem_cons_of_mem _ h')

theorem mem_of_mem_erase {k : α} {q : α × β} {m : List (α × β)}
    (h : q ∈ erase k m) : q ∈ m :=
  (erase_sublist k m).mem h

theorem length_erase_of_lookup_some {k : α} {w : β} :
    ∀ {m : List (α × β)}, lookup k m = some w → m.length = (erase k m).length + 1 := by
  intro m
  induction m with
  | nil => intro h; cases h
  | cons p rest ih =>
    intro h
    simp only [lookup] at h
    simp only [erase]
    by_cases hk : k = p.1
    · rw [if_pos hk]
      simp
    · rw [if_neg hk] at h
      rw [if_neg hk]
      simp [ih h]

theorem del_of_lookup_some {k : α} {w : β} {m : List (α × β)}
    (h : lookup k m = some w) : del k m = some (erase k m) := by
  simp [del, h]

theorem del_of_lookup_none {k : α} {m : List (α × β)}
    (h : lookup k m = none) : del k m = none := by
  simp [del, h]

end BasicLemmas

end OMap



namespace OMap

section OrderedLemmas

variable {α β : Type} [DecidableEq α] [LinearOrder α] {lt : α → α → Bool}

theorem lookup_of_mem_knodup {q : α × β} {m : List (α × β)}
    (hnd : KNodup m) (hq : q ∈ m) : lookup q.1 m = some q.2 := by
  induction m with
  | nil => cases hq
  | cons p rest ih =>
    have hnd' := List.pairwise_cons.mp hnd
    rcases List.mem_cons.mp hq with h | h
    · rw [h]
      simp [lookup]
    · have hne : q.1 ≠ p.1 := fun hc => (hnd'.1 q h) hc.symm
      simp only [lookup, if_neg hne]
      exact ih hnd'.2 h

theorem ksorted_insert (hlt : ∀ a b : α, lt a b = true ↔ a < b) (k : α) (v : β)
    {m : List (α × β)} (hs : KSorted m) : KSorted (insert lt k v m) := by
  induction m with
  | nil =>
    simp only [insert, KSorted]
    exact List.pairwise_singleton _ _
  | cons p rest ih =>
    rcases List.pairwise_cons.mp hs with ⟨hp, hrest⟩
    simp only [insert]
    by_cases h1 : lt k p.1
    · rw [if_pos h1]
      have hkp : k < p.1 := (hlt _ _).mp h1
      refine List.pairwise_cons.mpr ⟨?_, hs⟩
      intro q hq
      rcases List.mem_cons.mp hq with h | h
      · rw [h]
        exact hkp
      · exact lt_trans hkp (hp q h)
    · by_cases h2 : k = p.1
      · rw [if_neg h1, if_pos h2]
        refine List.pairwise_cons.mpr ⟨?_, hrest⟩
        intro q hq
        show k < q.1
        rw [h2]
        exact hp q hq
      · rw [if_neg h1, if_neg h2]
        refine List.pairwise_cons.mpr ⟨?_, ih hrest⟩
        intro q hq
        rcases eq_or_mem_of_mem_insert hq with h | h
        · rw [h]
          show p.1 < k
          rcases lt_trichotomy k p.1 with hc | hc | hc
          · exact absurd ((hlt _ _).mpr hc) h1
          · exact absurd hc h2
          · exact hc
        · exact hp q h

theorem mem_insert_iff_of_ksorted (hlt : ∀ a b : α, lt a b = true ↔ a < b)
    {q : α × β} {k : α} {v : β} {m : List (α × β)} (hs : KSorted m) :
    q ∈ insert lt k v m ↔ q = (k, v) ∨ (q ∈ m ∧ q.1 ≠ k) := by
  constructor
  · intro hq
    by_cases hqkv : q = (k, v)
    · exact Or.inl hqkv
    · rcases eq_or_mem_of_mem_insert hq with h | h
      · exact absurd h hqkv
      · refine Or.inr ⟨h, ?_⟩
        intro hq1
        have hnd : KNodup (insert lt k v m) :=
          KSorted.knodup (ksorted_insert hlt k v hs)
        have hlook := lookup_of_mem_knodup hnd hq
        rw [hq1, lookup_insert_self] at hlook
        apply hqkv
        have : q.2 = v := by
          injection hlook with h'
          exact h'.symm
        calc q = (q.1, q.2) := Prod.mk.eta.symm
          _ = (k, v) := by rw [hq1, this]
  · intro hq
    rcases hq with h | ⟨h, hne⟩
    · rw [h]
      exact mem_insert_self lt k v m
    · exact mem_insert_of_mem lt k v hne h

theorem countP_insert_none (f : α × β → Bool) (k : α) (v : β)
    {m : List (α × β)} (h : lookup k m = none) :
    (insert lt k v m).countP f = m.countP f + (if f (k, v) then 1 else 0) := by
  induction m with
  | nil => simp [insert, List.countP_cons]
  | cons p rest ih =>
    simp only [lookup] at h
    by_cases hk : k = p.1
    · rw [if_pos hk] at h
      cases h
    · rw [if_neg hk] at h
      simp only [insert]
      by_cases h1 : lt k p.1
      · rw [if_pos h1]
        simp only [List.countP_cons]
      · rw [if_neg h1, if_neg hk]
        simp only [List.countP_cons]
        have := ih h
        omega

theorem countP_insert_some (hlt : ∀ a b : α, lt a b = true ↔ a < b)
    (f : α × β → Bool) {k : α} (v : β) {w : β} :
    ∀ {m : List (α × β)}, KSorted m → lookup k m = some w →
    (insert lt k v m).countP f + (if f (k, w) then 1 else 0)
      = m.countP f + (if f (k, v) then 1 else 0) := by
  intro m
  induction m with
  | nil => intro _ h; cases h
  | cons p rest ih =>
    intro hs h
    rcases List.pairwise_cons.mp hs with ⟨hp, hrest⟩
    simp only [lookup] at h
    by_cases hk : k = p.1
    · rw [if_pos hk] at h
      have hw : w = p.2 := by injection h with h'; exact h'.symm
      have h1 : ¬ lt k p.1 := by
        intro hc
        rw [hk] at hc
        exact absurd ((hlt _ _).mp hc) (lt_irrefl _)
      simp only [insert, if_neg h1, if_pos hk]
      simp only [List.countP_cons]
      have hkw : (k, w) = p := by
        calc (k, w) = (p.1, p.2) := by rw [hk, hw]
          _ = p := Prod.mk.eta
      rw [hkw]
      omega
    · rw [if_neg hk] at h
      have hmem : (k, w) ∈ rest := mem_of_lookup_eq_some h
      by_cases h1 : lt k p.1
      · exfalso
        have : p.1 < k := hp (k, w) hmem
        exact absurd (lt_trans this ((hlt _ _).mp h1)) (lt_irrefl _)
      · simp only [insert, if_neg h1, if_neg hk]
        simp only [List.countP_cons]
        have := ih hrest h
        omega

theorem countP_erase_some (f : α × β → Bool) {k : α} {w : β} :
    ∀ {m : List (α × β)}, KNodup m → lookup k m = some w →
    m.countP f = (erase k m).countP f + (if f (k, w) then 1 else 0) := by
  intro m
  induction m with
  | nil => intro _ h; cases h
  | cons p rest ih =>
    intro hnd h
    have hnd' := List.pairwise_cons.mp hnd
    simp only [lookup] at h
    simp only [erase]
    by_cases hk : k = p.1
    · rw [if_pos hk] at h
      have hw : w = p.2 := by injection h with h'; exact h'.symm
      rw [if_pos hk, List.countP_cons]
      have hkw : (k, w) = p := by
        calc (k, w) = (p.1, p.2) := by rw [hk, hw]
          _ = p := Prod.mk.eta
      rw [hkw]
    · rw [if_neg hk] at h
      rw [if_neg hk]
      simp only [List.countP_cons]
      have := ih hnd'.2 h
      omega

theorem mem_of_getLast?_eq_some {γ : Type} {l : List γ} {x : γ}
    (h : l.getLast? = some x) : x ∈ l := by
  rcases List.mem_getLast?_eq_getLast (Option.mem_def.mpr h) with ⟨hne, hx⟩
  rw [hx]
  exact List.getLast_mem hne

theorem ksorted_le_getLast {x q : α × β} :
    ∀ {m : List (α × β)}, KSorted m → x ∈ m → m.getLast? = some q → x.1 ≤ q.1 := by
  intro m
  induction m with
  | nil => intro _ hx _; cases hx
  | cons p rest ih =>
    intro hs hx hl
    rcases List.pairwise_cons.mp hs with ⟨hp, hrest⟩
    cases rest with
    | nil =>
      rcases List.mem_cons.mp hx with h | h
      · have : p = q := by injection hl
        rw [h, this]
      · cases h
    | cons r rs =>
      rw [List.getLast?_cons_cons] at hl
      rcases List.mem_cons.mp hx with h | h
      · have hq : q ∈ r :: rs := mem_of_getLast?_eq_some hl
        rw [h]
        exact le_of_lt (hp q hq)
      · exact ih hrest h hl

end OrderedLemmas

end OMap



/- number of edges of an edge index incident to the party p -/
def incidP (p : String) : (String × Edge) → Bool :=
  fun q => decide (q.2.source = p) || decide (q.2.target = p)

def incid (em : List (String × Edge)) (p : String) : Nat :=
  em.countP (incidP p)

theorem incidP_true_iff {p : String} {q : String × Edge} :
    incidP p q = true ↔ (q.2.source = p ∨ q.2.target = p) := by
  simp [incidP]

theorem incid_pos_iff {em : List (String × Edge)} {p : String} :
    0 < incid em p ↔ ∃ q ∈ em, q.2.source = p ∨ q.2.target = p := by
  rw [incid, List.countP_pos_iff]
  constructor
  · rintro ⟨q, hq, hp⟩
    exact ⟨q, hq, incidP_true_iff.mp hp⟩
  · rintro ⟨q, hq, hp⟩
    exact ⟨q, hq, incidP_true_iff.mpr hp⟩

/- the spec's median (§4.4) of a sorted list of positive degrees: middle
element for odd length, arithmetic mean of the two middle elements for
even length; the value is 0 for the empty list, which is the spec's
initial-state convention. -/
def specMedian (l : List Int) : Rat :=
  if l.length % 2 = 1 then ((l.getD (l.length / 2) 0 : Int) : Rat)
  else (((l.getD (l.length / 2) 0 : Int) : Rat) +
        ((l.getD (l.length / 2 - 1) 0 : Int) : Rat)) / 2

theorem specMedian_nil : specMedian [] = 0 := by
  simp [specMedian]

theorem mkRat_two_eq_div (n : Int) : mkRat n 2 = (n : Rat) / 2 := by
  rw [Rat.mkRat_eq_div]
  norm_num

theorem calculate_median_ok {g : TxGraph} (h : buildDegreeList g.nodeMap ≠ []) :
    g.calculate_median = .ok (specMedian (buildDegreeList g.nodeMap)) := by
  have hlen : buildDegreeList g.nodeMap ≠ [] → (buildDegreeList g.nodeMap).length ≠ 0 := by
    intro h hc
    exact h (List.length_eq_zero.mp hc)
  simp only [TxGraph.calculate_median]
  rw [if_neg (hlen h)]
  by_cases h1 : (buildDegreeList g.nodeMap).length = 1
  · rw [if_pos h1]
    simp only [specMedian, h1]
    norm_num
  · rw [if_neg h1]
    by_cases h2 : (buildDegreeList g.nodeMap).length % 2 = 0
    · rw [if_pos h2]
      have h3 : ¬ (buildDegreeList g.nodeMap).length % 2 = 1 := by omega
      simp only [specMedian, if_neg h3]
      rw [mkRat_two_eq_div]
      push_cast
      ring_nf
    · rw [if_neg h2]
      have h3 : (buildDegreeList g.nodeMap).length % 2 = 1 := by omega
      simp only [specMedian, if_pos h3]

theorem calculate_median_err {g : TxGraph} (h : buildDegreeList g.nodeMap = []) :
    g.calculate_median = .error .emptyDegreeList := by
  simp [TxGraph.calculate_median, h]

theorem sortedAdd_perm (d : Int) : ∀ l : List Int, List.Perm (sortedAdd d l) (d :: l) := by
  intro l
  induction l with
  | nil => simp [sortedAdd]
  | cons x xs ih =>
    simp only [sortedAdd]
    by_cases h : d ≤ x
    · rw [if_pos h]
    · rw [if_neg h]
      exact (ih.cons x).trans (List.Perm.swap d x xs)

theorem sortedAdd_sorted (d : Int) :
    ∀ {l : List Int}, l.Sorted (· ≤ ·) → (sortedAdd d l).Sorted (· ≤ ·) := by
  intro l
  induction l with
  | nil => intro _; simp [sortedAdd]
  | cons x xs ih =>
    intro hs
    rcases List.pairwise_cons.mp hs with ⟨hx, hxs⟩
    simp only [sortedAdd]
    by_cases h : d ≤ x
    · rw [if_pos h]
      refine List.pairwise_cons.mpr ⟨?_, hs⟩
      intro y hy
      rcases List.mem_cons.mp hy with hy | hy
      · rw [hy]; exact h
      · exact le_trans h (hx y hy)
    · rw [if_neg h]
      refine List.pairwise_cons.mpr ⟨?_, ih hxs⟩
      intro y hy
      have := (sortedAdd_perm d xs).mem_iff.mp hy
      rcases List.mem_cons.mp this with hy' | hy'
      · rw [hy']
        exact le_of_not_le h
      · exact hx y hy'

/- the foldl body of buildDegreeList -/
theorem buildDegreeList_aux_perm :
    ∀ (nm : List (String × Node)) (acc : List Int),
    List.Perm
      (nm.foldl (fun acc r => if 0 < r.2.degree then sortedAdd r.2.degree acc else acc) acc)
      (acc ++ (nm.map (fun r => r.2.degree)).filter (fun d => decide (0 < d))) := by
  intro nm
  induction nm with
  | nil => intro acc; simp
  | cons r rest ih =>
    intro acc
    simp only [List.foldl_cons, List.map_cons, List.filter_cons]
    by_cases h : 0 < r.2.degree
    · rw [if_pos h, if_pos (by simpa using h)]
      refine (ih (sortedAdd r.2.degree acc)).trans ?_
      refine ((sortedAdd_perm r.2.degree acc).append_right _).trans ?_
      rw [List.cons_append]
      exact List.perm_middle.symm
    · rw [if_neg h, if_neg (by simpa using h)]
      exact ih acc

theorem buildDegreeList_perm (nm : List (String × Node)) :
    List.Perm (buildDegreeList nm)
      ((nm.map (fun r => r.2.degree)).filter (fun d => decide (0 < d))) := by
  simpa using buildDegreeList_aux_perm nm []

theorem buildDegreeList_aux_sorted :
    ∀ (nm : List (String × Node)) (acc : List Int), acc.Sorted (· ≤ ·) →
    (nm.foldl (fun acc r => if 0 < r.2.degree then sortedAdd r.2.degree acc else acc)
      acc).Sorted (· ≤ ·) := by
  intro nm
  induction nm with
  | nil => intro acc h; simpa using h
  | cons r rest ih =>
    intro acc h
    simp only [List.foldl_cons]
    by_cases hd : 0 < r.2.degree
    · rw [if_pos hd]
      exact ih _ (sortedAdd_sorted _ h)
    · rw [if_neg hd]
      exact ih _ h

theorem buildDegreeList_sorted (nm : List (String × Node)) :
    (buildDegreeList nm).Sorted (· ≤ ·) :=
  buildDegreeList_aux_sorted nm [] (List.sorted_nil)

theorem buildDegreeList_ne_nil {nm : List (String × Node)} {r : String × Node}
    (hr : r ∈ nm) (hd : 0 < r.2.degree) : buildDegreeList nm ≠ [] := by
  intro hc
  have : r.2.degree ∈ (nm.map (fun r => r.2.degree)).filter (fun d => decide (0 < d)) := by
    rw [List.mem_filter]
    exact ⟨List.mem_map.mpr ⟨r, hr, rfl⟩, by simpa using hd⟩
  rw [← (buildDegreeList_perm nm).mem_iff, hc] at this
  cases this

/- canonical-edge facts about Edge.make -/
theorem Edge.make_tstamp (t : Int) (a b : String) : (Edge.make t a b).tstamp = t := by
  simp only [Edge.make]
  by_cases h : strLt a b
  · rw [if_pos h]
  · rw [if_neg h]

theorem Edge.make_name (t : Int) (a b : String) :
    (Edge.make t a b).name = Edge.derive_name a b := by
  simp only [Edge.make]
  by_cases h : strLt a b
  · rw [if_pos h]
  · rw [if_neg h]

theorem Edge.derive_name_comm (a b : String) (hne : a ≠ b) :
    Edge.derive_name a b = Edge.derive_name b a := by
  simp only [Edge.derive_name]
  rcases lt_trichotomy a b with h | h | h
  · rw [if_pos ((strLt_iff a b).mpr h), if_neg]
    intro hc
    exact absurd (lt_trans h ((strLt_iff b a).mp hc)) (lt_irrefl a)
  · exact absurd h hne
  · rw [if_pos ((strLt_iff b a).mpr h), if_neg]
    intro hc
    exact absurd (lt_trans h ((strLt_iff a b).mp hc)) (lt_irrefl b)

theorem Edge.derive_name_min_max (a b : String) :
    Edge.derive_name a b = min a b ++ ":" ++ max a b := by
  simp only [Edge.derive_name]
  rcases lt_trichotomy a b with h | h | h
  · rw [if_pos ((strLt_iff a b).mpr h), min_eq_left (le_of_lt h), max_eq_right (le_of_lt h)]
  · rw [h]
    rw [if_neg]
    · rw [min_self, max_self]
    · intro hc
      exact absurd ((strLt_iff b b).mp hc) (lt_irrefl b)
  · rw [if_neg, min_eq_right (le_of_lt h), max_eq_left (le_of_lt h)]
    intro hc
    exact absurd (lt_trans h ((strLt_iff a b).mp hc)) (lt_irrefl b)

theorem Edge.make_canon (t : Int) (a b : String) (hne : a ≠ b) :
    (Edge.make t a b).source < (Edge.make t a b).target ∧
    (Edge.make t a b).name = (Edge.make t a b).source ++ ":" ++ (Edge.make t a b).target ∧
    ((Edge.make t a b).source = a ∧ (Edge.make t a b).target = b ∨
     (Edge.make t a b).source = b ∧ (Edge.make t a b).target = a) := by
  rcases lt_trichotomy a b with h | h | h
  · have hb := (strLt_iff a b).mpr h
    simp only [Edge.make, if_pos hb]
    refine ⟨h, ?_, Or.inl ⟨trivial, trivial⟩⟩
    simp only [Edge.derive_name, if_pos hb]
  · exact absurd h hne
  · have hns : ¬ strLt a b = true := by
      intro hc
      exact absurd (lt_trans h ((strLt_iff a b).mp hc)) (lt_irrefl b)
    simp only [Edge.make, if_neg hns]
    refine ⟨h, ?_, Or.inr ⟨trivial, trivial⟩⟩
    simp only [Edge.derive_name, if_neg hns]

/- the degree bookkeeping carried between nodeMap and an edge index -/
def DegOk (nodeMap : List (String × Node)) (em : List (String × Edge)) : Prop :=
  (∀ r ∈ nodeMap, r.2.name = r.1 ∧ 0 < r.2.degree ∧ r.2.degree = (incid em r.1 : Int)) ∧
  (∀ q ∈ em, (OMap.lookup q.2.source nodeMap).isSome ∧
             (OMap.lookup q.2.target nodeMap).isSome)

/- structural well-formedness of a graph state; the cached-median
equation is stated separately in MedianOk because a window advance
re-establishes it only at the very end of process_transaction -/
structure InvCore (g : TxGraph) : Prop where
  txSorted : OMap.KSorted g.txMap
  edgeSorted : OMap.KSorted g.edgeMap
  nodeSorted : OMap.KSorted g.nodeMap
  bucketsSorted : ∀ p ∈ g.txMap, OMap.KSorted p.2.edges
  bucketTs : ∀ p ∈ g.txMap, p.2.tstamp = p.1
  bucketPos : ∀ p ∈ g.txMap, 1 ≤ p.1
  edgeCanon : ∀ q ∈ g.edgeMap, q.2.name = q.1 ∧ q.2.source < q.2.target ∧
    q.2.name = q.2.source ++ ":" ++ q.2.target
  edgeInBucket : ∀ q ∈ g.edgeMap, ∃ el, OMap.lookup q.2.tstamp g.txMap = some el ∧
    OMap.lookup q.1 el.edges = some q.2
  bucketEdge : ∀ p ∈ g.txMap, ∀ q ∈ p.2.edges, q.2.name = q.1 ∧ q.2.tstamp = p.1 ∧
    OMap.lookup q.1 g.edgeMap = some q.2
  degOk : DegOk g.nodeMap g.edgeMap

structure WindowOk (g : TxGraph) : Prop where
  bucketLow : ∀ p ∈ g.txMap, g.lowMarker ≤ p.1
  bucketHigh : ∀ p ∈ g.txMap, p.1 ≤ g.highMarker
  span : g.highMarker = g.lowMarker + TxGraph.WINDOW_SIZE - 1
  lowPos : 1 ≤ g.lowMarker

/- the cached median is the spec median of the sorted positive degrees -/
def MedianOk (g : TxGraph) : Prop :=
  g.median = specMedian (buildDegreeList g.nodeMap)

def Inv (g : TxGraph) : Prop := InvCore g ∧ WindowOk g ∧ MedianOk g

theorem inv_init : Inv TxGraph.init := by
  refine ⟨?_, ?_, ?_⟩
  · exact {
      txSorted := List.Pairwise.nil
      edgeSorted := List.Pairwise.nil
      nodeSorted := List.Pairwise.nil
      bucketsSorted := by intro p hp; cases hp
      bucketTs := by intro p hp; cases hp
      bucketPos := by intro p hp; cases hp
      edgeCanon := by intro q hq; cases hq
      edgeInBucket := by intro q hq; cases hq
      bucketEdge := by intro p hp; cases hp
      degOk := ⟨fun r hr => absurd hr (List.not_mem_nil r), fun q hq => absurd hq (List.not_mem_nil q)⟩ }
  · exact {
      bucketLow := by intro p hp; cases hp
      bucketHigh := by intro p hp; cases hp
      span := by simp [TxGraph.init, TxGraph.WINDOW_SIZE]
      lowPos := by simp [TxGraph.init] }
  · show (TxGraph.init).median = specMedian (buildDegreeList (TxGraph.init).nodeMap)
    simp [TxGraph.init, buildDegreeList, specMedian]



namespace OMap

section ExtraLemmas

variable {α β : Type} [DecidableEq α] [LinearOrder α] {lt : α → α → Bool}

theorem erase_eq_self_of_lookup_none {k : α} :
    ∀ {m : List (α × β)}, lookup k m = none → erase k m = m := by
  intro m
  induction m with
  | nil => intro _; rfl
  | cons p rest ih =>
    intro h
    simp only [lookup] at h
    by_cases hk : k = p.1
    · rw [if_pos hk] at h
      cases h
    · rw [if_neg hk] at h
      simp only [erase, if_neg hk]
      rw [ih h]

theorem erase_insert_self (hlt : ∀ a b : α, lt a b = true ↔ a < b) (k : α) (v : β) :
    ∀ {m : List (α × β)}, KSorted m → erase k (insert lt k v m) = erase k m := by
  have hirr : ∀ a : α, ¬ lt a a = true := by
    intro a hc
    exact absurd ((hlt a a).mp hc) (lt_irrefl a)
  intro m
  induction m with
  | nil => simp [insert, erase]
  | cons p rest ih =>
    intro hs
    rcases List.pairwise_cons.mp hs with ⟨hp, hrest⟩
    simp only [insert]
    by_cases h1 : lt k p.1
    · rw [if_pos h1]
      simp only [erase, if_pos rfl, if_true]
      have hkp : k < p.1 := (hlt _ _).mp h1
      have hne : ¬ k = p.1 := ne_of_lt hkp
      rw [if_neg hne]
      have hnone : lookup k rest = none := by
        rw [lookup_eq_none_iff]
        intro hmem
        rcases List.mem_map.mp hmem with ⟨q, hq, hq1⟩
        exact absurd (hq1 ▸ hp q hq) (not_lt_of_lt hkp)
      rw [erase_eq_self_of_lookup_none hnone]
    · by_cases h2 : k = p.1
      · rw [if_neg h1, if_pos h2]
        simp only [erase, if_pos rfl, if_pos h2, if_true]
      · rw [if_neg h1, if_neg h2]
        simp only [erase, if_neg h2]
        rw [ih hrest]

theorem insert_insert_self (hlt : ∀ a b : α, lt a b = true ↔ a < b) (k : α) (v v' : β) :
    ∀ m : List (α × β), insert lt k v' (insert lt k v m) = insert lt k v' m := by
  have hirr : ∀ a : α, ¬ lt a a = true := by
    intro a hc
    exact absurd ((hlt a a).mp hc) (lt_irrefl a)
  intro m
  induction m with
  | nil => simp [insert, hirr k]
  | cons p rest ih =>
    simp only [insert]
    by_cases h1 : lt k p.1
    · rw [if_pos h1]
      simp only [insert, if_neg (hirr k), if_pos rfl, if_pos h1, if_true]
    · by_cases h2 : k = p.1
      · rw [if_neg h1, if_pos h2]
        simp only [insert, if_neg (hirr k), if_pos rfl, if_neg h1, if_pos h2, if_true]
      · rw [if_neg h1, if_neg h2]
        simp only [insert, if_neg h1, if_neg h2]
        rw [ih]

end ExtraLemmas

end OMap

/- behaviour of __decr_degree_of_node on a present node -/
theorem decr_degree_of_node_spec (g : TxGraph) (p : String) (node : Node)
    (hs : OMap.KSorted g.nodeMap) (hname : node.name = p)
    (hl : OMap.lookup p g.nodeMap = some node) :
    g.decr_degree_of_node p = .ok { g with nodeMap := if node.degree - 1 = 0 then OMap.erase p g.nodeMap else OMap.insert strLt p ({ node with degree := node.degree - 1 }) g.nodeMap } := by
  have hn1 : ({ node with degree := node.degree - 1 } : Node).name = p := hname
  by_cases hz : node.degree - 1 = 0
  · simp only [TxGraph.decr_degree_of_node, hl, hn1, hname, OMap.del,
      OMap.lookup_insert_self, Option.isSome_some, if_true, if_pos hz,
      OMap.erase_insert_self strLt_iff p _ hs]
  · simp only [TxGraph.decr_degree_of_node, hl, hn1, if_neg hz]



/- one getnode_with_name + incr_degree step, as a rewrite equation -/
theorem getnode_incr_step (g0 : TxGraph) (p : String)
    (hn0 : ∀ r ∈ g0.nodeMap, r.2.name = r.1) :
    ∃ v : Node, v = ⟨p, (match OMap.lookup p g0.nodeMap with
        | some n => n.degree
        | none => 0) + 1⟩ ∧
      { (g0.getnode_with_name p).2 with nodeMap := OMap.insert strLt p ({ (g0.getnode_with_name p).1 with degree := (g0.getnode_with_name p).1.degree + 1 }) (g0.getnode_with_name p).2.nodeMap } = { g0 with nodeMap := OMap.insert strLt p v g0.nodeMap } := by
  rcases hl : OMap.lookup p g0.nodeMap with _ | n
  · refine ⟨⟨p, 1⟩, by simp [hl], ?_⟩
    simp only [TxGraph.getnode_with_name, hl]
    rw [OMap.insert_insert_self strLt_iff p _ _ g0.nodeMap]
    simp [zero_add]
  · have hnn : n.name = p := hn0 (p, n) (OMap.mem_of_lookup_eq_some hl)
    refine ⟨⟨p, n.degree + 1⟩, by simp [hl], ?_⟩
    simp only [TxGraph.getnode_with_name, hl]
    have : ({ n with degree := n.degree + 1 } : Node) = ⟨p, n.degree + 1⟩ := by
      rw [← hnn]
    rw [this]

/- the two degree bumps of __incr_degree_of_edge_nodes, described through
lookups on the resulting node index -/
theorem incr_spec (g : TxGraph) (edge : Edge)
    (hs : OMap.KSorted g.nodeMap)
    (hnames : ∀ r ∈ g.nodeMap, r.2.name = r.1)
    (hne : edge.source ≠ edge.target) :
    ∃ nm, g.incr_degree_of_edge_nodes edge = { g with nodeMap := nm } ∧
      OMap.KSorted nm ∧
      (∀ r ∈ nm, r.2.name = r.1) ∧
      OMap.lookup edge.source nm = some ⟨edge.source,
        (match OMap.lookup edge.source g.nodeMap with
          | some n => n.degree
          | none => 0) + 1⟩ ∧
      OMap.lookup edge.target nm = some ⟨edge.target,
        (match OMap.lookup edge.target g.nodeMap with
          | some n => n.degree
          | none => 0) + 1⟩ ∧
      (∀ j, j ≠ edge.source → j ≠ edge.target → OMap.lookup j nm = OMap.lookup j g.nodeMap) ∧
      (∀ r ∈ nm, r.1 = edge.source ∨ r.1 = edge.target ∨ r ∈ g.nodeMap) := by
  rcases getnode_incr_step g edge.source hnames with ⟨v1, hv1, he1⟩
  have hn1 : ∀ r ∈ OMap.insert strLt edge.source v1 g.nodeMap, r.2.name = r.1 := by
    intro r hr
    rcases OMap.eq_or_mem_of_mem_insert hr with h | h
    · rw [h, hv1]
    · exact hnames r h
  rcases getnode_incr_step { g with nodeMap := OMap.insert strLt edge.source v1 g.nodeMap }
      edge.target hn1 with ⟨v2, hv2, he2⟩
  refine ⟨OMap.insert strLt edge.target v2 (OMap.insert strLt edge.source v1 g.nodeMap), ?_, ?_, ?_, ?_, ?_, ?_, ?_⟩
  · simp only [TxGraph.incr_degree_of_edge_nodes]
    rw [he1]
    exact he2
  · exact OMap.ksorted_insert strLt_iff _ _ (OMap.ksorted_insert strLt_iff _ _ hs)
  · intro r hr
    rcases OMap.eq_or_mem_of_mem_insert hr with h | h
    · rw [h, hv2]
    · exact hn1 r h
  · rw [OMap.lookup_insert_ne strLt v2 hne, OMap.lookup_insert_self, hv1]
  · rw [OMap.lookup_insert_self, hv2]
    have : OMap.lookup edge.target (OMap.insert strLt edge.source v1 g.nodeMap)
        = OMap.lookup edge.target g.nodeMap :=
      OMap.lookup_insert_ne strLt v1 (Ne.symm hne) g.nodeMap
    rw [this]
  · intro j hj1 hj2
    rw [OMap.lookup_insert_ne strLt v2 hj2, OMap.lookup_insert_ne strLt v1 hj1]
  · intro r hr
    rcases OMap.eq_or_mem_of_mem_insert hr with h | h
    · rw [h]
      right
      left
      rfl
    · rcases OMap.eq_or_mem_of_mem_insert h with h' | h'
      · rw [h']
        left
        rfl
      · right; right; exact h'



theorem incidP_self_source (e : Edge) (n : String) : incidP e.source (n, e) = true :=
  incidP_true_iff.mpr (Or.inl rfl)

theorem incidP_self_target (e : Edge) (n : String) : incidP e.target (n, e) = true :=
  incidP_true_iff.mpr (Or.inr rfl)

theorem incidP_false_of_ne {j : String} {e : Edge} (n : String)
    (h1 : e.source ≠ j) (h2 : e.target ≠ j) : incidP j (n, e) = false := by
  rw [← Bool.not_eq_true]
  intro hc
  rcases incidP_true_iff.mp hc with h | h
  · exact h1 h
  · exact h2 h

/- a single __remove_edge call on a well-formed degree state -/
theorem remove_edge_spec (g : TxGraph) (e : Edge)
    (hs : OMap.KSorted g.nodeMap)
    (hes : OMap.KSorted g.edgeMap)
    (hdeg : DegOk g.nodeMap g.edgeMap)
    (hmem : OMap.lookup e.name g.edgeMap = some e)
    (hne : e.source ≠ e.target) :
    ∃ nm, g.remove_edge e = .ok { g with nodeMap := nm, edgeMap := OMap.erase e.name g.edgeMap } ∧
      OMap.KSorted nm ∧ DegOk nm (OMap.erase e.name g.edgeMap) ∧
      (∀ j, j ≠ e.source → j ≠ e.target → OMap.lookup j nm = OMap.lookup j g.nodeMap) := by
  have hq : (e.name, e) ∈ g.edgeMap := OMap.mem_of_lookup_eq_some hmem
  have hnd : OMap.KNodup g.nodeMap := OMap.KSorted.knodup hs
  have hend := hdeg.2 (e.name, e) hq
  rcases Option.isSome_iff_exists.mp hend.1 with ⟨nsrc, hlsrc⟩
  rcases Option.isSome_iff_exists.mp hend.2 with ⟨ntgt, hltgt⟩
  have hsrcfacts := hdeg.1 (e.source, nsrc) (OMap.mem_of_lookup_eq_some hlsrc)
  have htgtfacts := hdeg.1 (e.target, ntgt) (OMap.mem_of_lookup_eq_some hltgt)
  -- incidence bookkeeping for the erased edge map
  have hknd : OMap.KNodup g.edgeMap := OMap.KSorted.knodup hes
  have hcnt_src : incid g.edgeMap e.source
      = incid (OMap.erase e.name g.edgeMap) e.source + 1 := by
    have := OMap.countP_erase_some (incidP e.source) hknd hmem
    rw [incidP_self_source] at this
    simpa [incid] using this
  have hcnt_tgt : incid g.edgeMap e.target
      = incid (OMap.erase e.name g.edgeMap) e.target + 1 := by
    have := OMap.countP_erase_some (incidP e.target) hknd hmem
    rw [incidP_self_target] at this
    simpa [incid] using this
  have hcnt_other : ∀ j, j ≠ e.source → j ≠ e.target →
      incid g.edgeMap j = incid (OMap.erase e.name g.edgeMap) j := by
    intro j hj1 hj2
    have := OMap.countP_erase_some (incidP j) hknd hmem
    rw [incidP_false_of_ne e.name (Ne.symm hj1) (Ne.symm hj2)] at this
    simpa [incid] using this
  -- first decrement
  have hd1 := decr_degree_of_node_spec g e.source nsrc hs hsrcfacts.1 hlsrc
  set nm1 : List (String × Node) := if nsrc.degree - 1 = 0 then OMap.erase e.source g.nodeMap else OMap.insert strLt e.source ({ nsrc with degree := nsrc.degree - 1 }) g.nodeMap with hnm1
  have hs1 : OMap.KSorted nm1 := by
    rw [hnm1]
    by_cases hc : nsrc.degree - 1 = 0
    · rw [if_pos hc]
      exact hs.sublist (OMap.erase_sublist e.source g.nodeMap)
    · rw [if_neg hc]
      exact OMap.ksorted_insert strLt_iff _ _ hs
  have hltgt1 : OMap.lookup e.target nm1 = some ntgt := by
    rw [hnm1]
    by_cases hc : nsrc.degree - 1 = 0
    · rw [if_pos hc, OMap.lookup_erase_ne (Ne.symm hne), hltgt]
    · rw [if_neg hc, OMap.lookup_insert_ne strLt _ (Ne.symm hne), hltgt]
  have hlsrc1 : OMap.lookup e.source nm1
      = if nsrc.degree - 1 = 0 then none else some { nsrc with degree := nsrc.degree - 1 } := by
    rw [hnm1]
    by_cases hc : nsrc.degree - 1 = 0
    · rw [if_pos hc, if_pos hc]
      exact OMap.lookup_erase_self hnd
    · rw [if_neg hc, if_neg hc, OMap.lookup_insert_self]
  have hlother1 : ∀ j, j ≠ e.source → OMap.lookup j nm1 = OMap.lookup j g.nodeMap := by
    intro j hj
    rw [hnm1]
    by_cases hc : nsrc.degree - 1 = 0
    · rw [if_pos hc, OMap.lookup_erase_ne hj]
    · rw [if_neg hc, OMap.lookup_insert_ne strLt _ hj]
  have hmem1 : ∀ r ∈ nm1, r ∈ g.nodeMap ∨ r.1 = e.source := by
    intro r hr
    rw [hnm1] at hr
    by_cases hc : nsrc.degree - 1 = 0
    · rw [if_pos hc] at hr
      exact Or.inl (OMap.mem_of_mem_erase hr)
    · rw [if_neg hc] at hr
      rcases OMap.eq_or_mem_of_mem_insert hr with h | h
      · right; rw [h]
      · exact Or.inl h
  -- second decrement
  have hname_tgt : ntgt.name = e.target := htgtfacts.1
  have hd2 := decr_degree_of_node_spec { g with nodeMap := nm1 } e.target ntgt hs1 hname_tgt hltgt1
  set nm2 : List (String × Node) := if ntgt.degree - 1 = 0 then OMap.erase e.target nm1 else OMap.insert strLt e.target ({ ntgt with degree := ntgt.degree - 1 }) nm1 with hnm2
  have hs2 : OMap.KSorted nm2 := by
    rw [hnm2]
    by_cases hc : ntgt.degree - 1 = 0
    · rw [if_pos hc]
      exact hs1.sublist (OMap.erase_sublist e.target nm1)
    · rw [if_neg hc]
      exact OMap.ksorted_insert strLt_iff _ _ hs1
  have hnd1 : OMap.KNodup nm1 := OMap.KSorted.knodup hs1
  have hlsrc2 : OMap.lookup e.source nm2
      = if nsrc.degree - 1 = 0 then none else some { nsrc with degree := nsrc.degree - 1 } := by
    rw [hnm2]
    by_cases hc : ntgt.degree - 1 = 0
    · rw [if_pos hc, OMap.lookup_erase_ne hne, hlsrc1]
    · rw [if_neg hc, OMap.lookup_insert_ne strLt _ hne, hlsrc1]
  have hltgt2 : OMap.lookup e.target nm2
      = if ntgt.degree - 1 = 0 then none else some { ntgt with degree := ntgt.degree - 1 } := by
    rw [hnm2]
    by_cases hc : ntgt.degree - 1 = 0
    · rw [if_pos hc, if_pos hc]
      exact OMap.lookup_erase_self hnd1
    · rw [if_neg hc, if_neg hc, OMap.lookup_insert_self]
  have hlother2 : ∀ j, j ≠ e.source → j ≠ e.target →
      OMap.lookup j nm2 = OMap.lookup j g.nodeMap := by
    intro j hj1 hj2
    rw [hnm2]
    by_cases hc : ntgt.degree - 1 = 0
    · rw [if_pos hc, OMap.lookup_erase_ne hj2, hlother1 j hj1]
    · rw [if_neg hc, OMap.lookup_insert_ne strLt _ hj2, hlother1 j hj1]
  have hmem2 : ∀ r ∈ nm2, r ∈ g.nodeMap ∨ r.1 = e.source ∨ r.1 = e.target := by
    intro r hr
    rw [hnm2] at hr
    by_cases hc : ntgt.degree - 1 = 0
    · rw [if_pos hc] at hr
      rcases hmem1 r (OMap.mem_of_mem_erase hr) with h | h
      · exact Or.inl h
      · exact Or.inr (Or.inl h)
    · rw [if_neg hc] at hr
      rcases OMap.eq_or_mem_of_mem_insert hr with h | h
      · right; right; rw [h]
      · rcases hmem1 r h with h' | h'
        · exact Or.inl h'
        · exact Or.inr (Or.inl h')
  -- assemble the call
  refine ⟨nm2, ?_, hs2, ⟨?_, ?_⟩, hlother2⟩
  · simp only [TxGraph.remove_edge, TxGraph.decr_degree_of_edge_nodes, hd1, hd2,
      OMap.del_of_lookup_some hmem]
  · -- node facts over the erased edge map
    intro r hr
    have hval : OMap.lookup r.1 nm2 = some r.2 :=
      OMap.lookup_of_mem_knodup (OMap.KSorted.knodup hs2) hr
    by_cases hr1 : r.1 = e.source
    · rw [hr1, hlsrc2] at hval
      by_cases hc : nsrc.degree - 1 = 0
      · rw [if_pos hc] at hval
        cases hval
      · rw [if_neg hc] at hval
        have hval' : r.2 = { nsrc with degree := nsrc.degree - 1 } := by
          injection hval with h'
          exact h'.symm
        refine ⟨?_, ?_, ?_⟩
        · rw [hval', hr1]
          exact hsrcfacts.1
        · rw [hval']
          have : nsrc.degree = (incid g.edgeMap e.source : Int) := hsrcfacts.2.2
          rw [hcnt_src] at this
          simp only [this]
          push_cast
          omega
        · rw [hval', hr1]
          have : nsrc.degree = (incid g.edgeMap e.source : Int) := hsrcfacts.2.2
          rw [hcnt_src] at this
          simp only [this]
          push_cast
          omega
    · by_cases hr2 : r.1 = e.target
      · rw [hr2, hltgt2] at hval
        by_cases hc : ntgt.degree - 1 = 0
        · rw [if_pos hc] at hval
          cases hval
        · rw [if_neg hc] at hval
          have hval' : r.2 = { ntgt with degree := ntgt.degree - 1 } := by
            injection hval with h'
            exact h'.symm
          refine ⟨?_, ?_, ?_⟩
          · rw [hval', hr2]
            exact htgtfacts.1
          · rw [hval']
            have : ntgt.degree = (incid g.edgeMap e.target : Int) := htgtfacts.2.2
            rw [hcnt_tgt] at this
            simp only [this]
            push_cast
            omega
          · rw [hval', hr2]
            have : ntgt.degree = (incid g.edgeMap e.target : Int) := htgtfacts.2.2
            rw [hcnt_tgt] at this
            simp only [this]
            push_cast
            omega
      · rw [hlother2 r.1 hr1 hr2] at hval
        have hrmem : r ∈ g.nodeMap := OMap.mem_of_lookup_eq_some hval
        have hold := hdeg.1 r hrmem
        refine ⟨hold.1, hold.2.1, ?_⟩
        rw [← hcnt_other r.1 hr1 hr2]
        exact hold.2.2
  · -- endpoints of the surviving edges are still present
    intro q hq'
    have hqm : q ∈ g.edgeMap := OMap.mem_of_mem_erase hq'
    have hold := hdeg.2 q hqm
    constructor
    · by_cases h1 : q.2.source = e.source
      · rw [h1, hlsrc2]
        have hpos : 0 < incid (OMap.erase e.name g.edgeMap) e.source := by
          rw [incid, List.countP_pos_iff]
          exact ⟨q, hq', by rw [incidP_true_iff]; exact Or.inl h1⟩
        have hdegv : nsrc.degree = (incid g.edgeMap e.source : Int) := hsrcfacts.2.2
        have hc : ¬ nsrc.degree - 1 = 0 := by
          rw [hdegv, hcnt_src]
          push_cast
          omega
        rw [if_neg hc]
        simp
      · by_cases h2 : q.2.source = e.target
        · rw [h2, hltgt2]
          have hpos : 0 < incid (OMap.erase e.name g.edgeMap) e.target := by
            rw [incid, List.countP_pos_iff]
            exact ⟨q, hq', by rw [incidP_true_iff]; exact Or.inl h2⟩
          have hdegv : ntgt.degree = (incid g.edgeMap e.target : Int) := htgtfacts.2.2
          have hc : ¬ ntgt.degree - 1 = 0 := by
            rw [hdegv, hcnt_tgt]
            push_cast
            omega
          rw [if_neg hc]
          simp
        · rw [hlother2 _ h1 h2]
          exact hold.1
    · by_cases h1 : q.2.target = e.source
      · rw [h1, hlsrc2]
        have hpos : 0 < incid (OMap.erase e.name g.edgeMap) e.source := by
          rw [incid, List.countP_pos_iff]
          exact ⟨q, hq', by rw [incidP_true_iff]; exact Or.inr h1⟩
        have hdegv : nsrc.degree = (incid g.edgeMap e.source : Int) := hsrcfacts.2.2
        have hc : ¬ nsrc.degree - 1 = 0 := by
          rw [hdegv, hcnt_src]
          push_cast
          omega
        rw [if_neg hc]
        simp
      · by_cases h2 : q.2.target = e.target
        · rw [h2, hltgt2]
          have hpos : 0 < incid (OMap.erase e.name g.edgeMap) e.target := by
            rw [incid, List.countP_pos_iff]
            exact ⟨q, hq', by rw [incidP_true_iff]; exact Or.inr h2⟩
          have hdegv : ntgt.degree = (incid g.edgeMap e.target : Int) := htgtfacts.2.2
          have hc : ¬ ntgt.degree - 1 = 0 := by
            rw [hdegv, hcnt_tgt]
            push_cast
            omega
          rw [if_neg hc]
          simp
        · rw [hlother2 _ h1 h2]
          exact hold.2



/- erasing a list of edges in sequence, the loop body of eviction -/
def eraseEdges (es em : List (String × Edge)) : List (String × Edge) :=
  es.foldl (fun m q => OMap.erase q.1 m) em

theorem eraseEdges_nil (em : List (String × Edge)) : eraseEdges [] em = em := rfl

theorem eraseEdges_cons (q : String × Edge) (es em : List (String × Edge)) :
    eraseEdges (q :: es) em = eraseEdges es (OMap.erase q.1 em) := rfl

theorem remove_edges_append (g : TxGraph) (es1 es2 : List (String × Edge)) :
    g.remove_edges (es1 ++ es2) =
      match g.remove_edges es1 with
      | .error e => .error e
      | .ok g1 => g1.remove_edges es2 := by
  induction es1 generalizing g with
  | nil => simp [TxGraph.remove_edges]
  | cons q rest ih =>
    simp only [List.cons_append, TxGraph.remove_edges]
    rcases g.remove_edge q.2 with e | g1
    · rfl
    · exact ih g1

theorem evict_buckets_eq_remove_edges (g : TxGraph) (bs : List (Int × EdgeList)) :
    g.evict_buckets bs = g.remove_edges (bs.flatMap (fun p => p.2.edges)) := by
  induction bs generalizing g with
  | nil => rfl
  | cons b rest ih =>
    simp only [TxGraph.evict_buckets, List.flatMap_cons, remove_edges_append]
    rcases g.remove_edges b.2.edges with e | g1
    · rfl
    · exact ih g1

theorem OMap.erase_eq_filter {α β : Type} [DecidableEq α] {k : α} :
    ∀ {m : List (α × β)}, OMap.KNodup m →
    OMap.erase k m = m.filter (fun q => decide (q.1 ≠ k)) := by
  intro m
  induction m with
  | nil => intro _; rfl
  | cons p rest ih =>
    intro hnd
    rcases List.pairwise_cons.mp hnd with ⟨hp, hrest⟩
    simp only [OMap.erase, List.filter_cons]
    by_cases h : k = p.1
    · rw [if_pos h]
      have : (decide (p.1 ≠ k)) = false := by simp [h.symm]
      rw [this]
      simp only [Bool.false_eq_true, if_false]
      have hrest_eq : rest.filter (fun q => decide (q.1 ≠ k)) = rest := by
        apply List.filter_eq_self.mpr
        intro q hq
        simp only [decide_eq_true_eq]
        intro hc
        exact hp q hq (hc.trans h).symm
      rw [hrest_eq]
    · rw [if_neg h]
      have : (decide (p.1 ≠ k)) = true := by simp [Ne.symm h]
      rw [this]
      simp only [if_true]
      rw [ih hrest]

theorem eraseEdges_eq_filter :
    ∀ (es : List (String × Edge)) {em : List (String × Edge)}, OMap.KNodup em →
    eraseEdges es em = em.filter (fun q => decide (q.1 ∉ es.map Prod.fst)) := by
  intro es
  induction es with
  | nil =>
    intro em _
    rw [eraseEdges_nil]
    symm
    apply List.filter_eq_self.mpr
    intro q _
    simp
  | cons e rest ih =>
    intro em hnd
    rw [eraseEdges_cons, ih (List.Pairwise.sublist (OMap.erase_sublist e.1 em) hnd)]
    rw [OMap.erase_eq_filter hnd, List.filter_filter]
    apply List.filter_congr
    intro q _
    simp only [List.map_cons, List.mem_cons, not_or, Bool.and_comm]
    simp [and_comm]



theorem OMap.lookup_filter_of_true {α β : Type} [DecidableEq α] [LinearOrder α]
    {m : List (α × β)} {k : α} {v : β} {f : α × β → Bool}
    (hnd : OMap.KNodup m) (hl : OMap.lookup k m = some v) (hf : f (k, v) = true) :
    OMap.lookup k (m.filter f) = some v := by
  have hmem : (k, v) ∈ m.filter f := List.mem_filter.mpr ⟨OMap.mem_of_lookup_eq_some hl, hf⟩
  have hnd' : OMap.KNodup (m.filter f) := List.Pairwise.sublist (List.filter_sublist m) hnd
  exact OMap.lookup_of_mem_knodup hnd' hmem

/- the full eviction loop over a list of doomed edges -/
theorem remove_edges_spec :
    ∀ (es : List (String × Edge)) (g : TxGraph),
    OMap.KSorted g.nodeMap → OMap.KSorted g.edgeMap → DegOk g.nodeMap g.edgeMap →
    (∀ q ∈ es, OMap.lookup q.1 g.edgeMap = some q.2 ∧ q.2.name = q.1 ∧
      q.2.source ≠ q.2.target) →
    OMap.KNodup es →
    ∃ nm, g.remove_edges es = .ok { g with nodeMap := nm, edgeMap := eraseEdges es g.edgeMap } ∧
      OMap.KSorted nm ∧ DegOk nm (eraseEdges es g.edgeMap) := by
  intro es
  induction es with
  | nil =>
    intro g h1 _ h3 _ _
    exact ⟨g.nodeMap, by simp [TxGraph.remove_edges, eraseEdges_nil], h1, h3⟩
  | cons q rest ih =>
    intro g h1 h2 h3 hall hnd
    obtain ⟨hq, hqname, hqne⟩ := hall q (List.mem_cons_self q rest)
    have hmem : OMap.lookup q.2.name g.edgeMap = some q.2 := by
      rw [hqname]
      exact hq
    rcases remove_edge_spec g q.2 h1 h2 h3 hmem hqne with ⟨nm1, hcall, hs1, hdeg1, _⟩
    have hndr := List.pairwise_cons.mp hnd
    have hall' : ∀ q' ∈ rest, OMap.lookup q'.1 (OMap.erase q.2.name g.edgeMap) = some q'.2 ∧
        q'.2.name = q'.1 ∧ q'.2.source ≠ q'.2.target := by
      intro q' hq'
      obtain ⟨hl', hn', he'⟩ := hall q' (List.mem_cons_of_mem q hq')
      refine ⟨?_, hn', he'⟩
      rw [OMap.lookup_erase_ne, hl']
      rw [hqname]
      exact (hndr.1 q' hq').symm
    have hes' : OMap.KSorted (OMap.erase q.2.name g.edgeMap) :=
      h2.sublist (OMap.erase_sublist q.2.name g.edgeMap)
    rcases ih { g with nodeMap := nm1, edgeMap := OMap.erase q.2.name g.edgeMap }
        hs1 hes' hdeg1 hall' hndr.2 with ⟨nm2, hcall2, hs2, hdeg2⟩
    have hrw : OMap.erase q.2.name g.edgeMap = OMap.erase q.1 g.edgeMap := by
      rw [hqname]
    refine ⟨nm2, ?_, hs2, ?_⟩
    · simp only [TxGraph.remove_edges, hcall]
      rw [hcall2]
      simp only [eraseEdges_cons, hrw]
    · rw [eraseEdges_cons, ← hrw]
      exact hdeg2



/- the full __update_tx_window call on a structurally well-formed state:
it evicts exactly the buckets strictly below lowMarker, removes exactly
the edges whose timestamp is strictly below lowMarker, and reconciles
the degrees -/
theorem update_tx_window_spec (g : TxGraph) (hc : InvCore g) :
    ∃ nm, g.update_tx_window = .ok { g with txMap := g.txMap.filter (fun p => decide (g.lowMarker ≤ p.1)), edgeMap := g.edgeMap.filter (fun q => decide (g.lowMarker ≤ q.2.tstamp)), nodeMap := nm } ∧ OMap.KSorted nm ∧ DegOk nm (g.edgeMap.filter (fun q => decide (g.lowMarker ≤ q.2.tstamp))) := by
  set stale := g.txMap.filter (fun p => decide (p.1 < g.lowMarker)) with hstale
  set es := stale.flatMap (fun p => p.2.edges) with hes
  have hknd_em : OMap.KNodup g.edgeMap := OMap.KSorted.knodup hc.edgeSorted
  have hss : OMap.KSorted stale := hc.txSorted.sublist (List.filter_sublist _)
  have hall : ∀ q ∈ es, OMap.lookup q.1 g.edgeMap = some q.2 ∧ q.2.name = q.1 ∧
      q.2.source ≠ q.2.target := by
    intro q hq
    rcases List.mem_flatMap.mp hq with ⟨p, hp, hqp⟩
    have hptx : p ∈ g.txMap := (List.mem_filter.mp hp).1
    have hbe := hc.bucketEdge p hptx q hqp
    refine ⟨hbe.2.2, hbe.1, ?_⟩
    have hcanon := hc.edgeCanon (q.1, q.2) (OMap.mem_of_lookup_eq_some hbe.2.2)
    exact ne_of_lt hcanon.2.1
  have hnd_es : OMap.KNodup es := by
    refine List.pairwise_flatMap.mpr ⟨?_, ?_⟩
    · intro p hp
      exact OMap.KSorted.knodup (hc.bucketsSorted p (List.mem_filter.mp hp).1)
    · refine List.Pairwise.imp_of_mem ?_ hss
      intro p1 p2 hp1 hp2 hlt12 q1 hq1 q2 hq2 hceq
      have hb1 := hc.bucketEdge p1 (List.mem_filter.mp hp1).1 q1 hq1
      have hb2 := hc.bucketEdge p2 (List.mem_filter.mp hp2).1 q2 hq2
      have hsome : some q1.2 = some q2.2 := by
        rw [← hb1.2.2, ← hb2.2.2, hceq]
      have hv : q1.2 = q2.2 := by injection hsome
      have hts : p1.1 = p2.1 := by
        rw [← hb1.2.1, ← hb2.2.1, hv]
      exact absurd (hts ▸ hlt12) (lt_irrefl _)
  have hkeys : ∀ q ∈ g.edgeMap, (q.1 ∈ es.map Prod.fst ↔ q.2.tstamp < g.lowMarker) := by
    intro q hq
    constructor
    · intro hmn
      rcases List.mem_map.mp hmn with ⟨q', hq', hqeq⟩
      rcases List.mem_flatMap.mp hq' with ⟨p, hp, hq'p⟩
      have hb := hc.bucketEdge p (List.mem_filter.mp hp).1 q' hq'p
      have hplow : p.1 < g.lowMarker := by
        have := (List.mem_filter.mp hp).2
        simpa using this
      have hlq : OMap.lookup q.1 g.edgeMap = some q.2 :=
        OMap.lookup_of_mem_knodup hknd_em hq
      have hsome : some q'.2 = some q.2 := by
        rw [← hb.2.2, hqeq, hlq]
      have hv : q'.2 = q.2 := by injection hsome
      rw [← hv, hb.2.1]
      exact hplow
    · intro htlow
      rcases hc.edgeInBucket q hq with ⟨el, hel, helq⟩
      have hmemtx : (q.2.tstamp, el) ∈ g.txMap := OMap.mem_of_lookup_eq_some hel
      have hstale_mem : (q.2.tstamp, el) ∈ stale :=
        List.mem_filter.mpr ⟨hmemtx, by simpa using htlow⟩
      have hmm : (q.1, q.2) ∈ el.edges := OMap.mem_of_lookup_eq_some helq
      exact List.mem_map.mpr ⟨(q.1, q.2),
        List.mem_flatMap.mpr ⟨(q.2.tstamp, el), hstale_mem, hmm⟩, rfl⟩
  have hem' : eraseEdges es g.edgeMap
      = g.edgeMap.filter (fun q => decide (g.lowMarker ≤ q.2.tstamp)) := by
    rw [eraseEdges_eq_filter es hknd_em]
    apply List.filter_congr
    intro q hq
    apply decide_eq_decide.mpr
    exact (not_congr (hkeys q hq)).trans not_lt
  rcases remove_edges_spec es g hc.nodeSorted hc.edgeSorted hc.degOk hall hnd_es
    with ⟨nm, hcall, hsnm, hdegnm⟩
  rw [hem'] at hcall hdegnm
  refine ⟨nm, ?_, hsnm, hdegnm⟩
  simp only [TxGraph.update_tx_window]
  rw [← hstale, evict_buckets_eq_remove_edges, ← hes, hcall]
  rcases hlast : (stale.map Prod.fst).getLast? with _ | last
  all_goals dsimp only
  · have hstale_nil : stale = [] :=
      List.map_eq_nil_iff.mp (List.getLast?_eq_none_iff.mp hlast)
    have hnone : ∀ p ∈ g.txMap, ¬ (p.1 < g.lowMarker) := by
      intro p hp hcon
      have : p ∈ stale := List.mem_filter.mpr ⟨hp, by simpa using hcon⟩
      rw [hstale_nil] at this
      cases this
    have htx_self : g.txMap.filter (fun p => decide (g.lowMarker ≤ p.1)) = g.txMap := by
      apply List.filter_eq_self.mpr
      intro p hp
      simpa using not_lt.mp (hnone p hp)
    simp only [htx_self]
  · rw [List.getLast?_map] at hlast
    rcases hqo : stale.getLast? with _ | qlast
    · rw [hqo] at hlast
      cases hlast
    · rw [hqo] at hlast
      have hql : qlast.1 = last := by
        simpa using hlast
      have hqmem : qlast ∈ stale := OMap.mem_of_getLast?_eq_some hqo
      have hqtx : qlast ∈ g.txMap := (List.mem_filter.mp hqmem).1
      have hqlow : qlast.1 < g.lowMarker := by
        have := (List.mem_filter.mp hqmem).2
        simpa using this
      have hlast0 : ¬ last = 0 := by
        have := hc.bucketPos qlast hqtx
        omega
      rw [if_neg hlast0]
      have htx_eq : g.txMap.filter (fun p => decide (last < p.1))
          = g.txMap.filter (fun p => decide (g.lowMarker ≤ p.1)) := by
        apply List.filter_congr
        intro p hp
        apply decide_eq_decide.mpr
        constructor
        · intro hlp
          by_contra hcon
          rw [not_le] at hcon
          have hpst : p ∈ stale := List.mem_filter.mpr ⟨hp, by simpa using hcon⟩
          have := OMap.ksorted_le_getLast hss hpst hqo
          omega
        · intro hlp
          calc last = qlast.1 := hql.symm
            _ < g.lowMarker := hqlow
            _ ≤ p.1 := hlp
      simp only [htx_eq]



/- InvCore is preserved by the bucket move + edge-index update that a
successful timestamp refresh performs.  bedges is the edge list of the
target bucket before the move ([] when that bucket does not exist). -/
theorem update_tstamp_build (g : TxGraph) (name : String) (t : Int) (e : Edge)
    (elOld : EdgeList) (bedges : List (String × Edge))
    (hc : InvCore g) (hpos : 1 ≤ t)
    (hl : OMap.lookup name g.edgeMap = some e)
    (ht : e.tstamp < t)
    (helOld : OMap.lookup e.tstamp g.txMap = some elOld)
    (hbs : OMap.KSorted bedges)
    (hbed : ∀ q ∈ bedges, q.2.name = q.1 ∧ q.2.tstamp = t ∧
      OMap.lookup q.1 g.edgeMap = some q.2)
    (hbq : ∀ q ∈ g.edgeMap, q.2.tstamp = t → OMap.lookup q.1 bedges = some q.2) :
    InvCore { g with txMap := OMap.insert intLt t ({ tstamp := t, edges := OMap.insert strLt name ({ e with tstamp := t }) bedges }) (OMap.insert intLt e.tstamp ({ elOld with edges := OMap.erase name elOld.edges }) g.txMap), edgeMap := OMap.insert strLt name ({ e with tstamp := t }) g.edgeMap } := by
  have hmm : (name, e) ∈ g.edgeMap := OMap.mem_of_lookup_eq_some hl
  obtain ⟨hename, hslt, hnamestr⟩ := hc.edgeCanon (name, e) hmm
  have hetne : ¬ (t = e.tstamp) := by omega
  have hetne' : ¬ (e.tstamp = t) := by omega
  have hbsOld : OMap.KSorted elOld.edges :=
    hc.bucketsSorted (e.tstamp, elOld) (OMap.mem_of_lookup_eq_some helOld)
  have helq : OMap.lookup name elOld.edges = some e := by
    rcases hc.edgeInBucket (name, e) hmm with ⟨el, hel1, hel2⟩
    have : el = elOld := by
      rw [helOld] at hel1
      injection hel1 with h'
      exact h'.symm
    rw [← this]
    exact hel2
  set moved : Edge := { e with tstamp := t } with hmoved
  set elMod : EdgeList := { elOld with edges := OMap.erase name elOld.edges } with helMod
  set el2 : EdgeList := { tstamp := t, edges := OMap.insert strLt name moved bedges } with hel2
  set txA := OMap.insert intLt e.tstamp elMod g.txMap with htxA
  set tx' := OMap.insert intLt t el2 txA with htx'
  set em' := OMap.insert strLt name moved g.edgeMap with hem'
  have hmem_tx' : ∀ p, p ∈ tx' → p = (t, el2) ∨ p = (e.tstamp, elMod) ∨
      (p ∈ g.txMap ∧ p.1 ≠ t ∧ p.1 ≠ e.tstamp) := by
    intro p hp
    rcases (OMap.mem_insert_iff_of_ksorted intLt_iff
        (OMap.ksorted_insert intLt_iff _ _ hc.txSorted)).mp hp with h | ⟨h, hne1⟩
    · exact Or.inl h
    · rcases (OMap.mem_insert_iff_of_ksorted intLt_iff hc.txSorted).mp h with h' | ⟨h', hne2⟩
      · exact Or.inr (Or.inl h')
      · exact Or.inr (Or.inr ⟨h', hne1, hne2⟩)
  have hmem_em' : ∀ q, q ∈ em' → q = (name, moved) ∨ (q ∈ g.edgeMap ∧ q.1 ≠ name) :=
    fun q hq => (OMap.mem_insert_iff_of_ksorted strLt_iff hc.edgeSorted).mp hq
  have hlook_tx'_t : OMap.lookup t tx' = some el2 := OMap.lookup_insert_self intLt t el2 txA
  have hlook_tx'_e : OMap.lookup e.tstamp tx' = some elMod := by
    rw [htx', OMap.lookup_insert_ne intLt el2 hetne', htxA, OMap.lookup_insert_self]
  have hlook_tx'_other : ∀ j, j ≠ t → j ≠ e.tstamp →
      OMap.lookup j tx' = OMap.lookup j g.txMap := by
    intro j h1 h2
    rw [htx', OMap.lookup_insert_ne intLt el2 h1, htxA, OMap.lookup_insert_ne intLt elMod h2]
  have hlook_em'_name : OMap.lookup name em' = some moved :=
    OMap.lookup_insert_self strLt name moved g.edgeMap
  have hlook_em'_other : ∀ j, j ≠ name → OMap.lookup j em' = OMap.lookup j g.edgeMap :=
    fun j hj => OMap.lookup_insert_ne strLt moved hj g.edgeMap
  have hKem : OMap.KNodup g.edgeMap := OMap.KSorted.knodup hc.edgeSorted
  have hKbOld : OMap.KNodup elOld.edges := OMap.KSorted.knodup hbsOld
  refine ⟨?_, ?_, ?_, ?_, ?_, ?_, ?_, ?_, ?_, ?_⟩
  · exact OMap.ksorted_insert intLt_iff _ _ (OMap.ksorted_insert intLt_iff _ _ hc.txSorted)
  · exact OMap.ksorted_insert strLt_iff _ _ hc.edgeSorted
  · exact hc.nodeSorted
  · intro p hp
    rcases hmem_tx' p hp with h | h | ⟨h, _, _⟩
    · rw [h]
      exact OMap.ksorted_insert strLt_iff _ _ hbs
    · rw [h]
      exact hbsOld.sublist (OMap.erase_sublist name elOld.edges)
    · exact hc.bucketsSorted p h
  · intro p hp
    rcases hmem_tx' p hp with h | h | ⟨h, _, _⟩
    · rw [h]
    · rw [h]
      exact hc.bucketTs (e.tstamp, elOld) (OMap.mem_of_lookup_eq_some helOld)
    · exact hc.bucketTs p h
  · intro p hp
    rcases hmem_tx' p hp with h | h | ⟨h, _, _⟩
    · rw [h]
      exact hpos
    · rw [h]
      exact hc.bucketPos (e.tstamp, elOld) (OMap.mem_of_lookup_eq_some helOld)
    · exact hc.bucketPos p h
  · intro q hq
    rcases hmem_em' q hq with h | ⟨h, _⟩
    · rw [h]
      exact ⟨hename, hslt, hnamestr⟩
    · exact hc.edgeCanon q h
  · intro q hq
    rcases hmem_em' q hq with h | ⟨h, hqn⟩
    · rw [h]
      refine ⟨el2, ?_, ?_⟩
      · show OMap.lookup moved.tstamp tx' = some el2
        rw [show moved.tstamp = t from rfl]
        exact hlook_tx'_t
      · rw [hel2]
        exact OMap.lookup_insert_self strLt name moved bedges
    · rcases hc.edgeInBucket q h with ⟨el, hel1, hel2x⟩
      by_cases hts1 : q.2.tstamp = e.tstamp
      · have helOld' : el = elOld := by
          rw [hts1, helOld] at hel1
          injection hel1 with h'
          exact h'.symm
        refine ⟨elMod, ?_, ?_⟩
        · rw [hts1]
          exact hlook_tx'_e
        · rw [helMod]
          show OMap.lookup q.1 (OMap.erase name elOld.edges) = some q.2
          rw [OMap.lookup_erase_ne hqn, ← helOld']
          exact hel2x
      · by_cases hts2 : q.2.tstamp = t
        · refine ⟨el2, ?_, ?_⟩
          · rw [hts2]
            exact hlook_tx'_t
          · rw [hel2]
            show OMap.lookup q.1 (OMap.insert strLt name moved bedges) = some q.2
            rw [OMap.lookup_insert_ne strLt moved hqn]
            exact hbq q h hts2
        · refine ⟨el, ?_, hel2x⟩
          rw [hlook_tx'_other q.2.tstamp hts2 hts1]
          exact hel1
  · intro p hp q hq
    rcases hmem_tx' p hp with h | h | ⟨h, hp1, hp2⟩
    · subst h
      rcases (OMap.mem_insert_iff_of_ksorted strLt_iff hbs).mp hq with h' | ⟨h', hqn⟩
      · subst h'
        refine ⟨hename, rfl, ?_⟩
        exact hlook_em'_name
      · obtain ⟨hn1, hn2, hn3⟩ := hbed q h'
        refine ⟨hn1, hn2, ?_⟩
        rw [hlook_em'_other q.1 ?hne]
        · exact hn3
        case hne =>
          intro hcq
          rw [hcq] at hn3
          rw [hl] at hn3
          have hqe : q.2 = e := by
            injection hn3 with h''
            exact h''.symm
          rw [hqe] at hn2
          omega
    · subst h
      have hqold : q ∈ elOld.edges := OMap.mem_of_mem_erase hq
      obtain ⟨hn1, hn2, hn3⟩ := hc.bucketEdge (e.tstamp, elOld)
        (OMap.mem_of_lookup_eq_some helOld) q hqold
      have hKer : OMap.KNodup (OMap.erase name elOld.edges) :=
        List.Pairwise.sublist (OMap.erase_sublist name elOld.edges) hKbOld
      have hlk := OMap.lookup_of_mem_knodup hKer hq
      have hqn : q.1 ≠ name := by
        intro hcq
        rw [hcq, OMap.lookup_erase_self hKbOld] at hlk
        cases hlk
      refine ⟨hn1, hn2, ?_⟩
      rw [hlook_em'_other q.1 hqn]
      exact hn3
    · obtain ⟨hn1, hn2, hn3⟩ := hc.bucketEdge p h q hq
      refine ⟨hn1, hn2, ?_⟩
      rw [hlook_em'_other q.1 ?hne2]
      · exact hn3
      case hne2 =>
        intro hcq
        rw [hcq, hl] at hn3
        have hqe : q.2 = e := by
          injection hn3 with h''
          exact h''.symm
        rw [hqe] at hn2
        rw [← hn2] at hp2
        exact hp2 rfl
  · constructor
    · intro r hr
      obtain ⟨hn1, hn2, hn3⟩ := hc.degOk.1 r hr
      refine ⟨hn1, hn2, ?_⟩
      have hcnt := OMap.countP_insert_some strLt_iff (incidP r.1) moved hc.edgeSorted hl
      have hzz : incid em' r.1 = incid g.edgeMap r.1 := by
        have hite : (if incidP r.1 (name, e) = true then 1 else 0)
            = (if incidP r.1 (name, moved) = true then 1 else 0) := rfl
        rw [hem', incid, incid]
        omega
      rw [hn3, hzz]
    · intro q hq
      rcases hmem_em' q hq with h | ⟨h, _⟩
      · rw [h]
        exact hc.degOk.2 (name, e) hmm
      · exact hc.degOk.2 q h
  


/- full characterisation of a successful timestamp refresh -/
theorem update_tstamp_spec (g : TxGraph) (name : String) (t : Int) (e : Edge)
    (hc : InvCore g) (hpos : 1 ≤ t)
    (hl : OMap.lookup name g.edgeMap = some e)
    (ht : e.tstamp < t) :
    ∃ g', g.update_tstamp_for_existing_edge name t = .ok g' ∧
      InvCore g' ∧
      g'.nodeMap = g.nodeMap ∧ g'.median = g.median ∧
      g'.highMarker = g.highMarker ∧ g'.lowMarker = g.lowMarker ∧
      g'.edgeMap = OMap.insert strLt name ({ e with tstamp := t }) g.edgeMap ∧
      (∀ p ∈ g'.txMap, p.1 = t ∨ p.1 ∈ g.txMap.map Prod.fst) ∧
      (∃ elOld el', OMap.lookup e.tstamp g.txMap = some elOld ∧
        OMap.lookup e.tstamp g'.txMap = some el' ∧
        el'.edges = OMap.erase name elOld.edges ∧
        elOld.edges.length = el'.edges.length + 1 ∧
        OMap.lookup name el'.edges = none) ∧
      (∃ el2, OMap.lookup t g'.txMap = some el2 ∧
        OMap.lookup name el2.edges = some ({ e with tstamp := t })) := by
  have hmm : (name, e) ∈ g.edgeMap := OMap.mem_of_lookup_eq_some hl
  obtain ⟨hename, hslt, hnamestr⟩ := hc.edgeCanon (name, e) hmm
  obtain ⟨elOld, helOld, helq⟩ := hc.edgeInBucket (name, e) hmm
  have hKb : OMap.KNodup elOld.edges :=
    OMap.KSorted.knodup (hc.bucketsSorted (e.tstamp, elOld) (OMap.mem_of_lookup_eq_some helOld))
  have hdel : OMap.del name elOld.edges = some (OMap.erase name elOld.edges) :=
    OMap.del_of_lookup_some helq
  have hnle : ¬ (t ≤ e.tstamp) := not_le.mpr ht
  have hetne : ¬ (t = e.tstamp) := by omega
  have hetne' : ¬ (e.tstamp = t) := by omega
  have hen : e.name = name := hename
  have hmvname : ({ e with tstamp := t } : Edge).name = name := hename
  have hA : OMap.lookup t (OMap.insert intLt e.tstamp ({ elOld with edges := OMap.erase name elOld.edges }) g.txMap) = OMap.lookup t g.txMap :=
    OMap.lookup_insert_ne intLt _ hetne g.txMap
  -- shared final facts, parametrised by the target-bucket edge list
  have hfinal : ∀ bedges : List (String × Edge), OMap.KSorted bedges →
      (∀ q ∈ bedges, q.2.name = q.1 ∧ q.2.tstamp = t ∧
        OMap.lookup q.1 g.edgeMap = some q.2) →
      (∀ q ∈ g.edgeMap, q.2.tstamp = t → OMap.lookup q.1 bedges = some q.2) →
      (InvCore { g with txMap := OMap.insert intLt t ({ tstamp := t, edges := OMap.insert strLt name ({ e with tstamp := t }) bedges }) (OMap.insert intLt e.tstamp ({ elOld with edges := OMap.erase name elOld.edges }) g.txMap), edgeMap := OMap.insert strLt name ({ e with tstamp := t }) g.edgeMap } ∧
       (∀ p ∈ OMap.insert intLt t ({ tstamp := t, edges := OMap.insert strLt name ({ e with tstamp := t }) bedges }) (OMap.insert intLt e.tstamp ({ elOld with edges := OMap.erase name elOld.edges }) g.txMap), p.1 = t ∨ p.1 ∈ g.txMap.map Prod.fst) ∧
       (∃ elOld2 el', OMap.lookup e.tstamp g.txMap = some elOld2 ∧
        OMap.lookup e.tstamp (OMap.insert intLt t ({ tstamp := t, edges := OMap.insert strLt name ({ e with tstamp := t }) bedges }) (OMap.insert intLt e.tstamp ({ elOld with edges := OMap.erase name elOld.edges }) g.txMap)) = some el' ∧
        el'.edges = OMap.erase name elOld2.edges ∧
        elOld2.edges.length = el'.edges.length + 1 ∧
        OMap.lookup name el'.edges = none) ∧
       (∃ el2, OMap.lookup t (OMap.insert intLt t ({ tstamp := t, edges := OMap.insert strLt name ({ e with tstamp := t }) bedges }) (OMap.insert intLt e.tstamp ({ elOld with edges := OMap.erase name elOld.edges }) g.txMap)) = some el2 ∧
        OMap.lookup name el2.edges = some ({ e with tstamp := t }))) := by
    intro bedges hbs hbed hbq
    refine ⟨update_tstamp_build g name t e elOld bedges hc hpos hl ht helOld hbs hbed hbq,
      ?_, ?_, ?_⟩
    · intro p hp
      rcases OMap.eq_or_mem_of_mem_insert hp with h | h
      · left
        rw [h]
      · rcases OMap.eq_or_mem_of_mem_insert h with h' | h'
        · right
          rw [h']
          exact List.mem_map.mpr ⟨(e.tstamp, elOld), OMap.mem_of_lookup_eq_some helOld, rfl⟩
        · right
          exact List.mem_map.mpr ⟨p, h', rfl⟩
    · refine ⟨elOld, { elOld with edges := OMap.erase name elOld.edges }, helOld, ?_, rfl, ?_, ?_⟩
      · rw [OMap.lookup_insert_ne intLt _ hetne', OMap.lookup_insert_self]
      · exact OMap.length_erase_of_lookup_some helq
      · exact OMap.lookup_erase_self hKb
    · refine ⟨{ tstamp := t, edges := OMap.insert strLt name ({ e with tstamp := t }) bedges }, OMap.lookup_insert_self intLt _ _ _, ?_⟩
      exact OMap.lookup_insert_self strLt _ _ _
  rcases hb : OMap.lookup t g.txMap with _ | el20
  · -- the bucket for the new timestamp does not exist yet
    have hrun : g.update_tstamp_for_existing_edge name t = .ok { g with txMap := OMap.insert intLt t ({ tstamp := t, edges := OMap.insert strLt name ({ e with tstamp := t }) [] }) (OMap.insert intLt e.tstamp ({ elOld with edges := OMap.erase name elOld.edges }) g.txMap), edgeMap := OMap.insert strLt name ({ e with tstamp := t }) g.edgeMap } := by
      simp only [TxGraph.update_tstamp_for_existing_edge, hl, if_neg hnle, helOld, hdel,
        TxGraph.get_edgelist, hA, hb, hmvname, hen,
        OMap.insert_insert_self intLt_iff t _ _]
    have hbq : ∀ q ∈ g.edgeMap, q.2.tstamp = t → OMap.lookup q.1 ([] : List (String × Edge)) = some q.2 := by
      intro q hq hqt
      rcases hc.edgeInBucket q hq with ⟨el, hel1, _⟩
      rw [hqt, hb] at hel1
      cases hel1
    rcases hfinal [] List.Pairwise.nil (by intro q hq; cases hq) hbq with ⟨h1, h2, h3, h4⟩
    exact ⟨_, hrun, h1, rfl, rfl, rfl, rfl, rfl, h2, h3, h4⟩
  · -- the bucket for the new timestamp already exists
    have hel20mem : (t, el20) ∈ g.txMap := OMap.mem_of_lookup_eq_some hb
    have hel20ts : el20.tstamp = t := hc.bucketTs (t, el20) hel20mem
    have hrun : g.update_tstamp_for_existing_edge name t = .ok { g with txMap := OMap.insert intLt t ({ tstamp := t, edges := OMap.insert strLt name ({ e with tstamp := t }) el20.edges }) (OMap.insert intLt e.tstamp ({ elOld with edges := OMap.erase name elOld.edges }) g.txMap), edgeMap := OMap.insert strLt name ({ e with tstamp := t }) g.edgeMap } := by
      simp only [TxGraph.update_tstamp_for_existing_edge, hl, if_neg hnle, helOld, hdel,
        TxGraph.get_edgelist, hA, hb, hmvname, hen, hel20ts]
    have hbed : ∀ q ∈ el20.edges, q.2.name = q.1 ∧ q.2.tstamp = t ∧
        OMap.lookup q.1 g.edgeMap = some q.2 := by
      intro q hq
      exact hc.bucketEdge (t, el20) hel20mem q hq
    have hbq : ∀ q ∈ g.edgeMap, q.2.tstamp = t → OMap.lookup q.1 el20.edges = some q.2 := by
      intro q hq hqt
      rcases hc.edgeInBucket q hq with ⟨el, hel1, hel2⟩
      rw [hqt, hb] at hel1
      have : el = el20 := by
        injection hel1 with h'
        exact h'.symm
      rw [← this]
      exact hel2
    rcases hfinal el20.edges (hc.bucketsSorted (t, el20) hel20mem) hbed hbq with ⟨h1, h2, h3, h4⟩
    exact ⟨_, hrun, h1, rfl, rfl, rfl, rfl, rfl, h2, h3, h4⟩



theorem incid_zero_of_absent {nm : List (String × Node)} {em : List (String × Edge)}
    {p : String} (hend : ∀ q ∈ em, (OMap.lookup q.2.source nm).isSome ∧
      (OMap.lookup q.2.target nm).isSome)
    (habs : OMap.lookup p nm = none) : incid em p = 0 := by
  by_contra hcon
  have hpos : 0 < incid em p := Nat.pos_of_ne_zero hcon
  rcases incid_pos_iff.mp hpos with ⟨q, hq, hor⟩
  rcases hor with h | h
  · have := (hend q hq).1
    rw [h, habs] at this
    cases this
  · have := (hend q hq).2
    rw [h, habs] at this
    cases this

/- InvCore is preserved by the new-edge block (bucket entry + edge index
entry + degree bumps); bedges is the edge list of the target bucket
before the insertion ([] when the bucket does not exist yet). -/
theorem insert_new_edge_build (g : TxGraph) (t : Int) (newEdge : Edge)
    (bedges : List (String × Edge)) (nm : List (String × Node))
    (hc : InvCore g) (hpos : 1 ≤ t)
    (hslt : newEdge.source < newEdge.target)
    (hnstr : newEdge.name = newEdge.source ++ ":" ++ newEdge.target)
    (hts : newEdge.tstamp = t)
    (habs : OMap.lookup newEdge.name g.edgeMap = none)
    (hbs : OMap.KSorted bedges)
    (hbed : ∀ q ∈ bedges, q.2.name = q.1 ∧ q.2.tstamp = t ∧
      OMap.lookup q.1 g.edgeMap = some q.2)
    (hbq : ∀ q ∈ g.edgeMap, q.2.tstamp = t → OMap.lookup q.1 bedges = some q.2)
    (hnms : OMap.KSorted nm)
    (hnmn : ∀ r ∈ nm, r.2.name = r.1)
    (hlsrc : OMap.lookup newEdge.source nm = some ⟨newEdge.source,
      (match OMap.lookup newEdge.source g.nodeMap with
        | some n => n.degree
        | none => 0) + 1⟩)
    (hltgt : OMap.lookup newEdge.target nm = some ⟨newEdge.target,
      (match OMap.lookup newEdge.target g.nodeMap with
        | some n => n.degree
        | none => 0) + 1⟩)
    (hlother : ∀ j, j ≠ newEdge.source → j ≠ newEdge.target →
      OMap.lookup j nm = OMap.lookup j g.nodeMap)
    (hmemnm : ∀ r ∈ nm, r.1 = newEdge.source ∨ r.1 = newEdge.target ∨ r ∈ g.nodeMap) :
    InvCore { g with txMap := OMap.insert intLt t ({ tstamp := t, edges := OMap.insert strLt newEdge.name newEdge bedges }) g.txMap, edgeMap := OMap.insert strLt newEdge.name newEdge g.edgeMap, nodeMap := nm } := by
  have hsne : newEdge.source ≠ newEdge.target := ne_of_lt hslt
  set name := newEdge.name with hname
  set em' := OMap.insert strLt name newEdge g.edgeMap with hem'
  set el2 : EdgeList := { tstamp := t, edges := OMap.insert strLt name newEdge bedges } with hel2
  set tx' := OMap.insert intLt t el2 g.txMap with htx'
  have hmem_tx' : ∀ p, p ∈ tx' → p = (t, el2) ∨ (p ∈ g.txMap ∧ p.1 ≠ t) :=
    fun p hp => (OMap.mem_insert_iff_of_ksorted intLt_iff hc.txSorted).mp hp
  have hmem_em' : ∀ q, q ∈ em' → q = (name, newEdge) ∨ (q ∈ g.edgeMap ∧ q.1 ≠ name) :=
    fun q hq => (OMap.mem_insert_iff_of_ksorted strLt_iff hc.edgeSorted).mp hq
  have hlook_tx'_t : OMap.lookup t tx' = some el2 := OMap.lookup_insert_self intLt t el2 g.txMap
  have hlook_tx'_other : ∀ j, j ≠ t → OMap.lookup j tx' = OMap.lookup j g.txMap :=
    fun j hj => OMap.lookup_insert_ne intLt el2 hj g.txMap
  have hlook_em'_name : OMap.lookup name em' = some newEdge :=
    OMap.lookup_insert_self strLt name newEdge g.edgeMap
  have hlook_em'_other : ∀ j, j ≠ name → OMap.lookup j em' = OMap.lookup j g.edgeMap :=
    fun j hj => OMap.lookup_insert_ne strLt newEdge hj g.edgeMap
  have hnotbed : ∀ q ∈ bedges, q.1 ≠ name := by
    intro q hq hcq
    have := (hbed q hq).2.2
    rw [hcq, habs] at this
    cases this
  have hnotold : ∀ q ∈ g.edgeMap, q.1 ≠ name := by
    intro q hq hcq
    have := OMap.lookup_of_mem_knodup (OMap.KSorted.knodup hc.edgeSorted) hq
    rw [hcq, habs] at this
    cases this
  refine ⟨?_, ?_, ?_, ?_, ?_, ?_, ?_, ?_, ?_, ?_⟩
  · exact OMap.ksorted_insert intLt_iff _ _ hc.txSorted
  · exact OMap.ksorted_insert strLt_iff _ _ hc.edgeSorted
  · exact hnms
  · intro p hp
    rcases hmem_tx' p hp with h | ⟨h, _⟩
    · rw [h]
      exact OMap.ksorted_insert strLt_iff _ _ hbs
    · exact hc.bucketsSorted p h
  · intro p hp
    rcases hmem_tx' p hp with h | ⟨h, _⟩
    · rw [h]
    · exact hc.bucketTs p h
  · intro p hp
    rcases hmem_tx' p hp with h | ⟨h, _⟩
    · rw [h]
      exact hpos
    · exact hc.bucketPos p h
  · intro q hq
    rcases hmem_em' q hq with h | ⟨h, _⟩
    · rw [h]
      exact ⟨rfl, hslt, hnstr⟩
    · exact hc.edgeCanon q h
  · intro q hq
    rcases hmem_em' q hq with h | ⟨h, hqn⟩
    · rw [h]
      refine ⟨el2, ?_, ?_⟩
      · show OMap.lookup newEdge.tstamp tx' = some el2
        rw [hts]
        exact hlook_tx'_t
      · rw [hel2]
        exact OMap.lookup_insert_self strLt name newEdge bedges
    · rcases hc.edgeInBucket q h with ⟨el, hel1, hel2x⟩
      by_cases hts1 : q.2.tstamp = t
      · refine ⟨el2, ?_, ?_⟩
        · rw [hts1]
          exact hlook_tx'_t
        · rw [hel2]
          show OMap.lookup q.1 (OMap.insert strLt name newEdge bedges) = some q.2
          rw [OMap.lookup_insert_ne strLt newEdge hqn]
          exact hbq q h hts1
      · refine ⟨el, ?_, hel2x⟩
        rw [hlook_tx'_other q.2.tstamp hts1]
        exact hel1
  · intro p hp q hq
    rcases hmem_tx' p hp with h | ⟨h, hp1⟩
    · subst h
      rcases (OMap.mem_insert_iff_of_ksorted strLt_iff hbs).mp hq with h' | ⟨h', hqn⟩
      · subst h'
        exact ⟨rfl, hts, hlook_em'_name⟩
      · obtain ⟨hn1, hn2, hn3⟩ := hbed q h'
        refine ⟨hn1, hn2, ?_⟩
        rw [hlook_em'_other q.1 hqn]
        exact hn3
    · obtain ⟨hn1, hn2, hn3⟩ := hc.bucketEdge p h q hq
      refine ⟨hn1, hn2, ?_⟩
      rw [hlook_em'_other q.1 (hnotold q (OMap.mem_of_lookup_eq_some hn3))]
      exact hn3
  · constructor
    · intro r hr
      have hval : OMap.lookup r.1 nm = some r.2 :=
        OMap.lookup_of_mem_knodup (OMap.KSorted.knodup hnms) hr
      have hcnt : ∀ j, incid em' j = incid g.edgeMap j
          + (if incidP j (name, newEdge) then 1 else 0) := by
        intro j
        rw [hem', incid, incid]
        exact OMap.countP_insert_none (incidP j) name newEdge habs
      by_cases hr1 : r.1 = newEdge.source
      · rw [hr1, hlsrc] at hval
        have hval' : r.2 = ⟨newEdge.source, (match OMap.lookup newEdge.source g.nodeMap with
            | some n => n.degree
            | none => 0) + 1⟩ := by
          injection hval with h'
          exact h'.symm
        have hiP : incidP newEdge.source (name, newEdge) = true :=
          incidP_true_iff.mpr (Or.inl rfl)
        rcases hon : OMap.lookup newEdge.source g.nodeMap with _ | n
        · have hz : incid g.edgeMap newEdge.source = 0 :=
            incid_zero_of_absent hc.degOk.2 hon
          refine ⟨by rw [hval', hr1], ?_, ?_⟩
          · rw [hval']
            simp [hon]
          · rw [hval', hr1, hcnt, hz, hiP]
            simp [hon]
        · have hfacts := hc.degOk.1 (newEdge.source, n) (OMap.mem_of_lookup_eq_some hon)
          refine ⟨by rw [hval', hr1], ?_, ?_⟩
          · rw [hval']
            simp only [hon]
            have h5 : 0 < n.degree := hfacts.2.1
            omega
          · rw [hval', hr1, hcnt, hiP]
            simp only [hon, if_true]
            have h6 : n.degree = (incid g.edgeMap newEdge.source : Int) := hfacts.2.2
            push_cast
            push_cast at h6
            omega
      · by_cases hr2 : r.1 = newEdge.target
        · rw [hr2, hltgt] at hval
          have hval' : r.2 = ⟨newEdge.target, (match OMap.lookup newEdge.target g.nodeMap with
              | some n => n.degree
              | none => 0) + 1⟩ := by
            injection hval with h'
            exact h'.symm
          have hiP : incidP newEdge.target (name, newEdge) = true :=
            incidP_true_iff.mpr (Or.inr rfl)
          rcases hon : OMap.lookup newEdge.target g.nodeMap with _ | n
          · have hz : incid g.edgeMap newEdge.target = 0 :=
              incid_zero_of_absent hc.degOk.2 hon
            refine ⟨by rw [hval', hr2], ?_, ?_⟩
            · rw [hval']
              simp [hon]
            · rw [hval', hr2, hcnt, hz, hiP]
              simp [hon]
          · have hfacts := hc.degOk.1 (newEdge.target, n) (OMap.mem_of_lookup_eq_some hon)
            refine ⟨by rw [hval', hr2], ?_, ?_⟩
            · rw [hval']
              simp only [hon]
              have h5 : 0 < n.degree := hfacts.2.1
              omega
            · rw [hval', hr2, hcnt, hiP]
              simp only [hon, if_true]
              have h6 : n.degree = (incid g.edgeMap newEdge.target : Int) := hfacts.2.2
              push_cast
              push_cast at h6
              omega
        · rw [hlother r.1 hr1 hr2] at hval
          have hold := hc.degOk.1 r (OMap.mem_of_lookup_eq_some hval)
          refine ⟨hold.1, hold.2.1, ?_⟩
          have hiP : incidP r.1 (name, newEdge) = false := by
            apply incidP_false_of_ne
            · intro hcq
              exact hr1 hcq.symm
            · intro hcq
              exact hr2 hcq.symm
          rw [hcnt, hiP]
          simp only [Bool.false_eq_true, if_false, Nat.add_zero]
          exact hold.2.2
    · intro q hq
      rcases hmem_em' q hq with h | ⟨h, _⟩
      · rw [h]
        constructor
        · rw [show (name, newEdge).2.source = newEdge.source from rfl, hlsrc]
          rfl
        · rw [show (name, newEdge).2.target = newEdge.target from rfl, hltgt]
          rfl
      · have hold := hc.degOk.2 q h
        constructor
        · by_cases h1 : q.2.source = newEdge.source
          · rw [h1, hlsrc]
            rfl
          · by_cases h2 : q.2.source = newEdge.target
            · rw [h2, hltgt]
              rfl
            · rw [hlother q.2.source h1 h2]
              exact hold.1
        · by_cases h1 : q.2.target = newEdge.source
          · rw [h1, hlsrc]
            rfl
          · by_cases h2 : q.2.target = newEdge.target
            · rw [h2, hltgt]
              rfl
            · rw [hlother q.2.target h1 h2]
              exact hold.2



/- full characterisation of the new-edge block -/
theorem insert_new_edge_spec (g : TxGraph) (t : Int) (newEdge : Edge)
    (hc : InvCore g) (hpos : 1 ≤ t)
    (hslt : newEdge.source < newEdge.target)
    (hnstr : newEdge.name = newEdge.source ++ ":" ++ newEdge.target)
    (hts : newEdge.tstamp = t)
    (habs : OMap.lookup newEdge.name g.edgeMap = none) :
    ∃ g', g.insert_new_edge t newEdge = g' ∧ InvCore g' ∧
      g'.median = g.median ∧ g'.highMarker = g.highMarker ∧ g'.lowMarker = g.lowMarker ∧
      g'.edgeMap = OMap.insert strLt newEdge.name newEdge g.edgeMap ∧
      (∃ r ∈ g'.nodeMap, 0 < r.2.degree) ∧
      (∀ p ∈ g'.txMap, p.1 = t ∨ p.1 ∈ g.txMap.map Prod.fst) := by
  have hsne : newEdge.source ≠ newEdge.target := ne_of_lt hslt
  have hnames : ∀ r ∈ g.nodeMap, r.2.name = r.1 := fun r hr => (hc.degOk.1 r hr).1
  -- the common tail, once the target-bucket edge list is known
  have htail : ∀ bedges : List (String × Edge), OMap.KSorted bedges →
      (∀ q ∈ bedges, q.2.name = q.1 ∧ q.2.tstamp = t ∧
        OMap.lookup q.1 g.edgeMap = some q.2) →
      (∀ q ∈ g.edgeMap, q.2.tstamp = t → OMap.lookup q.1 bedges = some q.2) →
      ∃ nm, ({ g with txMap := OMap.insert intLt t ({ tstamp := t, edges := OMap.insert strLt newEdge.name newEdge bedges }) g.txMap, edgeMap := OMap.insert strLt newEdge.name newEdge g.edgeMap } : TxGraph).incr_degree_of_edge_nodes newEdge = { g with txMap := OMap.insert intLt t ({ tstamp := t, edges := OMap.insert strLt newEdge.name newEdge bedges }) g.txMap, edgeMap := OMap.insert strLt newEdge.name newEdge g.edgeMap, nodeMap := nm } ∧ InvCore { g with txMap := OMap.insert intLt t ({ tstamp := t, edges := OMap.insert strLt newEdge.name newEdge bedges }) g.txMap, edgeMap := OMap.insert strLt newEdge.name newEdge g.edgeMap, nodeMap := nm } ∧ (∃ r ∈ nm, 0 < r.2.degree) := by
    intro bedges hbs hbed hbq
    set gMid : TxGraph := { g with txMap := OMap.insert intLt t ({ tstamp := t, edges := OMap.insert strLt newEdge.name newEdge bedges }) g.txMap, edgeMap := OMap.insert strLt newEdge.name newEdge g.edgeMap } with hgMid
    have hmidnodes : gMid.nodeMap = g.nodeMap := rfl
    rcases incr_spec gMid newEdge hc.nodeSorted hnames hsne
      with ⟨nm, heq, hnms, hnmn, hlsrc, hltgt, hlother, hmemnm⟩
    rw [hmidnodes] at hlsrc hltgt hlother hmemnm
    refine ⟨nm, heq, ?_, ?_⟩
    · exact insert_new_edge_build g t newEdge bedges nm hc hpos hslt hnstr hts habs
        hbs hbed hbq hnms hnmn hlsrc hltgt hlother hmemnm
    · rcases hon : OMap.lookup newEdge.source g.nodeMap with _ | n
      · rw [hon] at hlsrc
        refine ⟨_, OMap.mem_of_lookup_eq_some hlsrc, ?_⟩
        show 0 < (0 : Int) + 1
        norm_num
      · rw [hon] at hlsrc
        refine ⟨_, OMap.mem_of_lookup_eq_some hlsrc, ?_⟩
        have h5 : 0 < n.degree :=
          (hc.degOk.1 (newEdge.source, n) (OMap.mem_of_lookup_eq_some hon)).2.1
        show 0 < n.degree + 1
        omega
  rcases hb : OMap.lookup t g.txMap with _ | base
  · have hbq : ∀ q ∈ g.edgeMap, q.2.tstamp = t →
        OMap.lookup q.1 ([] : List (String × Edge)) = some q.2 := by
      intro q hq hqt
      rcases hc.edgeInBucket q hq with ⟨el, hel1, _⟩
      rw [hqt, hb] at hel1
      cases hel1
    rcases htail [] List.Pairwise.nil (by intro q hq; cases hq) hbq
      with ⟨nm, heq, hinv, hex⟩
    refine ⟨_, ?_, hinv, rfl, rfl, rfl, rfl, hex, ?_⟩
    · show g.insert_new_edge t newEdge = _
      simp only [TxGraph.insert_new_edge, TxGraph.get_edgelist, hb,
        OMap.insert_insert_self intLt_iff t _ _]
      exact heq
    · intro p hp
      rcases OMap.eq_or_mem_of_mem_insert hp with h | h
      · left
        rw [h]
      · right
        exact List.mem_map.mpr ⟨p, h, rfl⟩
  · have hbasemem : (t, base) ∈ g.txMap := OMap.mem_of_lookup_eq_some hb
    have hbasets : base.tstamp = t := hc.bucketTs (t, base) hbasemem
    have hbed : ∀ q ∈ base.edges, q.2.name = q.1 ∧ q.2.tstamp = t ∧
        OMap.lookup q.1 g.edgeMap = some q.2 :=
      fun q hq => hc.bucketEdge (t, base) hbasemem q hq
    have hbq : ∀ q ∈ g.edgeMap, q.2.tstamp = t → OMap.lookup q.1 base.edges = some q.2 := by
      intro q hq hqt
      rcases hc.edgeInBucket q hq with ⟨el, hel1, hel2⟩
      rw [hqt, hb] at hel1
      have : el = base := by
        injection hel1 with h'
        exact h'.symm
      rw [← this]
      exact hel2
    rcases htail base.edges (hc.bucketsSorted (t, base) hbasemem) hbed hbq
      with ⟨nm, heq, hinv, hex⟩
    refine ⟨_, ?_, hinv, rfl, rfl, rfl, rfl, hex, ?_⟩
    · show g.insert_new_edge t newEdge = _
      simp only [TxGraph.insert_new_edge, TxGraph.get_edgelist, hb, hbasets]
      exact heq
    · intro p hp
      rcases OMap.eq_or_mem_of_mem_insert hp with h | h
      · left
        rw [h]
      · right
        exact List.mem_map.mpr ⟨p, h, rfl⟩



theorem String.length_zero_iff {s : String} : s.length = 0 ↔ s = "" := by
  constructor
  · intro hc
    have h0 : s.data.length = 0 := hc
    have hdata : s.data = [] := List.length_eq_zero.mp h0
    cases s
    simp at hdata
    simp [hdata]
  · intro h
    rw [h]
    rfl

/- a refresh with an equal or older timestamp is a no-op -/
theorem update_tstamp_noop (g : TxGraph) (name : String) (t : Int) (e : Edge)
    (hl : OMap.lookup name g.edgeMap = some e) (hle : t ≤ e.tstamp) :
    g.update_tstamp_for_existing_edge name t = .ok g := by
  simp [TxGraph.update_tstamp_for_existing_edge, hl, hle]

/- the four validation outcomes of process_transaction -/
theorem process_invalid_none_left (g : TxGraph) (t : Int) (b : Option String) :
    g.process_transaction t none b = .error (.invalidNode, g) := rfl

theorem process_invalid_none_right (g : TxGraph) (t : Int) (x : String) :
    g.process_transaction t (some x) none = .error (.invalidNode, g) := rfl

theorem process_invalid_empty (g : TxGraph) (t : Int) (x y : String)
    (h : x = "" ∨ y = "") :
    g.process_transaction t (some x) (some y) = .error (.invalidNode, g) := by
  have hlen : x.length = 0 ∨ y.length = 0 := by
    rcases h with h | h
    · exact Or.inl (String.length_zero_iff.mpr h)
    · exact Or.inr (String.length_zero_iff.mpr h)
  simp [TxGraph.process_transaction, hlen]

theorem process_invalid_same (g : TxGraph) (t : Int) (x : String) (hx : x ≠ "") :
    g.process_transaction t (some x) (some x) = .error (.sameNode, g) := by
  have hlen0 : ¬ x.length = 0 := by
    rw [String.length_zero_iff]
    exact hx
  have hlen : ¬ (x.length = 0 ∨ x.length = 0) := by
    rw [or_self]
    exact hlen0
  simp [TxGraph.process_transaction, hlen, hlen0]

/- rebuilding InvCore after the windows filters of an eviction -/
theorem filtered_invcore (g : TxGraph) (nm : List (String × Node))
    (hc : InvCore g) (hnms : OMap.KSorted nm)
    (hdeg : DegOk nm (g.edgeMap.filter (fun q => decide (g.lowMarker ≤ q.2.tstamp)))) :
    InvCore { g with txMap := g.txMap.filter (fun p => decide (g.lowMarker ≤ p.1)), edgeMap := g.edgeMap.filter (fun q => decide (g.lowMarker ≤ q.2.tstamp)), nodeMap := nm } := by
  have hKtx : OMap.KNodup g.txMap := OMap.KSorted.knodup hc.txSorted
  have hKem : OMap.KNodup g.edgeMap := OMap.KSorted.knodup hc.edgeSorted
  refine ⟨?_, ?_, ?_, ?_, ?_, ?_, ?_, ?_, ?_, ?_⟩
  · exact hc.txSorted.sublist (List.filter_sublist _)
  · exact hc.edgeSorted.sublist (List.filter_sublist _)
  · exact hnms
  · intro p hp
    exact hc.bucketsSorted p (List.mem_filter.mp hp).1
  · intro p hp
    exact hc.bucketTs p (List.mem_filter.mp hp).1
  · intro p hp
    exact hc.bucketPos p (List.mem_filter.mp hp).1
  · intro q hq
    exact hc.edgeCanon q (List.mem_filter.mp hq).1
  · intro q hq
    rcases List.mem_filter.mp hq with ⟨hqm, hqf⟩
    rcases hc.edgeInBucket q hqm with ⟨el, hel1, hel2⟩
    refine ⟨el, ?_, hel2⟩
    apply OMap.lookup_filter_of_true hKtx hel1
    exact hqf
  · intro p hp q hq
    rcases List.mem_filter.mp hp with ⟨hpm, hpf⟩
    obtain ⟨hn1, hn2, hn3⟩ := hc.bucketEdge p hpm q hq
    refine ⟨hn1, hn2, ?_⟩
    apply OMap.lookup_filter_of_true hKem hn3
    show decide (g.lowMarker ≤ q.2.tstamp) = true
    rw [hn2]
    exact hpf
  · exact hdeg



/- InvCore ignores the cached median and the window markers -/
theorem invcore_median (g : TxGraph) (m : Rat) (h : InvCore g) :
    InvCore { g with median := m } :=
  ⟨h.txSorted, h.edgeSorted, h.nodeSorted, h.bucketsSorted, h.bucketTs, h.bucketPos,
   h.edgeCanon, h.edgeInBucket, h.bucketEdge, h.degOk⟩

theorem invcore_markers (g : TxGraph) (hi lo : Int) (h : InvCore g) :
    InvCore { g with highMarker := hi, lowMarker := lo } :=
  ⟨h.txSorted, h.edgeSorted, h.nodeSorted, h.bucketsSorted, h.bucketTs, h.bucketPos,
   h.edgeCanon, h.edgeInBucket, h.bucketEdge, h.degOk⟩

theorem key_mem_bounds (g : TxGraph) (hwin : WindowOk g) {j : Int}
    (h : j ∈ g.txMap.map Prod.fst) : g.lowMarker ≤ j ∧ j ≤ g.highMarker := by
  rcases List.mem_map.mp h with ⟨q, hq, hqe⟩
  exact ⟨hqe ▸ hwin.bucketLow q hq, hqe ▸ hwin.bucketHigh q hq⟩

/- a WindowOk rebuild for a same-window state whose bucket keys are the
old ones possibly extended by one in-window timestamp t -/
theorem windowok_of_keys (g g1 : TxGraph) (hwin : WindowOk g) (t : Int)
    (hh : g1.highMarker = g.highMarker) (hl : g1.lowMarker = g.lowMarker)
    (hlow : g.lowMarker ≤ t) (hhigh : t ≤ g.highMarker)
    (hkeys : ∀ p ∈ g1.txMap, p.1 = t ∨ p.1 ∈ g.txMap.map Prod.fst) : WindowOk g1 := by
  refine ⟨?_, ?_, ?_, ?_⟩
  · intro p hp
    rw [hl]
    rcases hkeys p hp with h | h
    · omega
    · exact (key_mem_bounds g hwin h).1
  · intro p hp
    rw [hh]
    rcases hkeys p hp with h | h
    · omega
    · exact (key_mem_bounds g hwin h).2
  · rw [hh, hl]
    exact hwin.span
  · rw [hl]
    exact hwin.lowPos



/- every valid call on an invariant state succeeds and preserves the
invariant -/
theorem process_valid_spec (g : TxGraph) (t : Int) (x y : String)
    (hInv : Inv g) (hx : x ≠ "") (hy : y ≠ "") (hxy : x ≠ y) :
    ∃ g', g.process_transaction t (some x) (some y) = .ok g' ∧ Inv g' := by
  obtain ⟨hcore, hwin, hmed⟩ := hInv
  have hlenx : ¬ x.length = 0 := by
    rw [String.length_zero_iff]
    exact hx
  have hleny : ¬ y.length = 0 := by
    rw [String.length_zero_iff]
    exact hy
  have hlen : ¬ (x.length = 0 ∨ y.length = 0) := by
    push_neg
    exact ⟨hlenx, hleny⟩
  by_cases hstale : t < g.lowMarker
  · refine ⟨g, ?_, ⟨hcore, hwin, hmed⟩⟩
    simp [TxGraph.process_transaction, hlen, hxy, hstale]
  · have hpos : 1 ≤ t := by
      have := hwin.lowPos
      omega
    obtain ⟨hmk_slt, hmk_nstr, _⟩ := Edge.make_canon t x y hxy
    have hmk_ts : (Edge.make t x y).tstamp = t := Edge.make_tstamp t x y
    by_cases hhigh : t ≤ g.highMarker
    · -- Path A: within the current window
      rcases hfound : OMap.lookup (Edge.make t x y).name g.edgeMap with _ | e
      · -- Path A, new edge
        rcases insert_new_edge_spec g t (Edge.make t x y) hcore hpos hmk_slt hmk_nstr
          hmk_ts hfound with ⟨g1, heq, hc1, hmed1, hhm1, hlm1, _, hex1, hkeys1⟩
        obtain ⟨r, hrmem, hrpos⟩ := hex1
        have hbn : buildDegreeList g1.nodeMap ≠ [] := buildDegreeList_ne_nil hrmem hrpos
        have hcalc := calculate_median_ok (g := g1) hbn
        refine ⟨{ g1 with median := specMedian (buildDegreeList g1.nodeMap) }, ?_, ?_, ?_, ?_⟩
        · simp only [TxGraph.process_transaction, if_neg hlen, if_neg hxy, if_neg hstale,
            if_pos hhigh, hfound, Option.isSome_none, Bool.false_eq_true, if_false, heq, hcalc]
        · exact invcore_median g1 _ hc1
        · exact windowok_of_keys g { g1 with median := _ } hwin t hhm1 hlm1
            (not_lt.mp hstale) hhigh hkeys1
        · show specMedian (buildDegreeList g1.nodeMap)
            = specMedian (buildDegreeList g1.nodeMap)
          rfl
      · -- Path A, existing edge: refresh
        by_cases hto : t ≤ e.tstamp
        · refine ⟨g, ?_, ⟨hcore, hwin, hmed⟩⟩
          simp only [TxGraph.process_transaction, if_neg hlen, if_neg hxy, if_neg hstale,
            if_pos hhigh, hfound, Option.isSome_some, if_true,
            update_tstamp_noop g (Edge.make t x y).name t e hfound hto]
        · have hgt : e.tstamp < t := by omega
          rcases update_tstamp_spec g (Edge.make t x y).name t e hcore hpos hfound hgt
            with ⟨g2, hrun2, hc2, hnm2, hmd2, hhm2, hlm2, _, hkeys2, _, _⟩
          refine ⟨g2, ?_, hc2, ?_, ?_⟩
          · simp only [TxGraph.process_transaction, if_neg hlen, if_neg hxy, if_neg hstale,
              if_pos hhigh, hfound, Option.isSome_some, if_true, hrun2]
          · exact windowok_of_keys g g2 hwin t hhm2 hlm2 (not_lt.mp hstale) hhigh hkeys2
          · show g2.median = specMedian (buildDegreeList g2.nodeMap)
            rw [hmd2, hnm2]
            exact hmed
    · -- Path B: window advance
      set g0 : TxGraph := { g with highMarker := t, lowMarker := t - TxGraph.WINDOW_SIZE + 1 } with hg0
      have hc0 : InvCore g0 := invcore_markers g t _ hcore
      have hwsz : TxGraph.WINDOW_SIZE = 60 := rfl
      have hhi : g.highMarker < t := not_le.mp hhigh
      rcases update_tx_window_spec g0 hc0 with ⟨nm, hrun1, hnms, hdeg1⟩
      obtain ⟨g1, hg1⟩ : ∃ g1, ({ g0 with txMap := g0.txMap.filter (fun p => decide (g0.lowMarker ≤ p.1)), edgeMap := g0.edgeMap.filter (fun q => decide (g0.lowMarker ≤ q.2.tstamp)), nodeMap := nm } : TxGraph) = g1 := ⟨_, rfl⟩
      rw [hg1] at hrun1
      have hc1 : InvCore g1 := hg1 ▸ filtered_invcore g0 nm hc0 hnms hdeg1
      have hg1high : g1.highMarker = t := by
        rw [← hg1]
      have hg1low : g1.lowMarker = t - TxGraph.WINDOW_SIZE + 1 := by
        rw [← hg1]
      have hg1keys : ∀ j, j ∈ g1.txMap.map Prod.fst →
          t - TxGraph.WINDOW_SIZE + 1 ≤ j ∧ j ≤ g.highMarker := by
        intro j hj
        rw [← hg1] at hj
        rcases List.mem_map.mp hj with ⟨q, hq, hqe⟩
        rcases List.mem_filter.mp hq with ⟨hqm, hqf⟩
        constructor
        · rw [← hqe]
          simpa using hqf
        · rw [← hqe]
          exact hwin.bucketHigh q hqm
      have hg1em : ∀ (name1 : String) (e : Edge),
          OMap.lookup name1 g1.edgeMap = some e → (name1, e) ∈ g.edgeMap := by
        intro name1 e hl1
        have hmem1 := OMap.mem_of_lookup_eq_some hl1
        rw [← hg1] at hmem1
        exact (List.mem_filter.mp hmem1).1
      have hwin2build : ∀ (g2 : TxGraph), g2.highMarker = t →
          g2.lowMarker = t - TxGraph.WINDOW_SIZE + 1 →
          (∀ p ∈ g2.txMap, p.1 = t ∨ p.1 ∈ g1.txMap.map Prod.fst) → WindowOk g2 := by
        intro g2 hh2 hl2 hkeys2
        refine ⟨?_, ?_, ?_, ?_⟩
        · intro p hp
          rw [hl2]
          rcases hkeys2 p hp with h | h
          · rw [hwsz]
            omega
          · exact (hg1keys p.1 h).1
        · intro p hp
          rw [hh2]
          rcases hkeys2 p hp with h | h
          · omega
          · have := (hg1keys p.1 h).2
            omega
        · rw [hh2, hl2]
          ring
        · rw [hl2, hwsz]
          have h1 := hwin.span
          have h2 := hwin.lowPos
          rw [hwsz] at h1
          omega
      have hts_le : ∀ (name1 : String) (e : Edge),
          OMap.lookup name1 g1.edgeMap = some e → e.tstamp ≤ g.highMarker := by
        intro name1 e hl1
        have hmem0 := hg1em name1 e hl1
        rcases hcore.edgeInBucket (name1, e) hmem0 with ⟨el, hel1, _⟩
        exact hwin.bucketHigh ((name1, e).2.tstamp, el) (OMap.mem_of_lookup_eq_some hel1)
      rcases hfound : OMap.lookup (Edge.make t x y).name g1.edgeMap with _ | e
      · -- new edge after eviction
        rcases insert_new_edge_spec g1 t (Edge.make t x y) hc1 hpos hmk_slt hmk_nstr
          hmk_ts hfound with ⟨g2, heq, hc2, hmed2, hhm2, hlm2, _, hex2, hkeys2⟩
        obtain ⟨r, hrmem, hrpos⟩ := hex2
        have hbn : buildDegreeList g2.nodeMap ≠ [] := buildDegreeList_ne_nil hrmem hrpos
        have hcalc := calculate_median_ok (g := g2) hbn
        refine ⟨{ g2 with median := specMedian (buildDegreeList g2.nodeMap) }, ?_, ?_, ?_, ?_⟩
        · simp only [TxGraph.process_transaction, if_neg hlen, if_neg hxy, if_neg hstale,
            if_neg hhigh]
          rw [← hg0, hrun1]
          simp only [hfound, Option.isSome_none, Bool.false_eq_true, if_false, heq, hcalc]
        · exact invcore_median g2 _ hc2
        · refine hwin2build { g2 with median := _ } ?_ ?_ ?_
          · show g2.highMarker = t
            rw [hhm2, hg1high]
          · show g2.lowMarker = t - TxGraph.WINDOW_SIZE + 1
            rw [hlm2, hg1low]
          · intro p hp
            exact hkeys2 p hp
        · show specMedian (buildDegreeList g2.nodeMap)
            = specMedian (buildDegreeList g2.nodeMap)
          rfl
      · -- surviving edge after eviction: refresh
        have hgt : e.tstamp < t := by
          have := hts_le (Edge.make t x y).name e hfound
          omega
        rcases update_tstamp_spec g1 (Edge.make t x y).name t e hc1 hpos hfound hgt
          with ⟨g2, hrun2, hc2, hnm2, _, hhm2, hlm2, _, hkeys2, _, _⟩
        have hmem1 : ((Edge.make t x y).name, e) ∈ g1.edgeMap :=
          OMap.mem_of_lookup_eq_some hfound
        have hendp := hc1.degOk.2 _ hmem1
        rcases Option.isSome_iff_exists.mp hendp.1 with ⟨nsrc, hnsrc⟩
        have hnfacts := hc1.degOk.1 (e.source, nsrc) (OMap.mem_of_lookup_eq_some hnsrc)
        have hex2 : ∃ r ∈ g2.nodeMap, 0 < r.2.degree := by
          rw [hnm2]
          exact ⟨(e.source, nsrc), OMap.mem_of_lookup_eq_some hnsrc, hnfacts.2.1⟩
        obtain ⟨r, hrmem, hrpos⟩ := hex2
        have hbn : buildDegreeList g2.nodeMap ≠ [] := buildDegreeList_ne_nil hrmem hrpos
        have hcalc := calculate_median_ok (g := g2) hbn
        refine ⟨{ g2 with median := specMedian (buildDegreeList g2.nodeMap) }, ?_, ?_, ?_, ?_⟩
        · simp only [TxGraph.process_transaction, if_neg hlen, if_neg hxy, if_neg hstale,
            if_neg hhigh]
          rw [← hg0, hrun1]
          simp only [hfound, Option.isSome_some, if_true, hrun2, hcalc]
        · exact invcore_median g2 _ hc2
        · refine hwin2build { g2 with median := _ } ?_ ?_ ?_
          · show g2.highMarker = t
            rw [hhm2, hg1high]
          · show g2.lowMarker = t - TxGraph.WINDOW_SIZE + 1
            rw [hlm2, hg1low]
          · intro p hp
            exact hkeys2 p hp
        · show specMedian (buildDegreeList g2.nodeMap)
            = specMedian (buildDegreeList g2.nodeMap)
          rfl



/- validity of the two party arguments, as the spec's InvalidInput
condition: both present, both non-empty and distinct -/
def ValidIn (a b : Option String) : Prop :=
  ∃ x y, a = some x ∧ b = some y ∧ x ≠ "" ∧ y ≠ "" ∧ x ≠ y

theorem process_ok_inv (g g' : TxGraph) (t : Int) (a b : Option String)
    (hInv : Inv g) (hok : g.process_transaction t a b = .ok g') : Inv g' := by
  match a, b with
  | none, b =>
    rw [process_invalid_none_left] at hok
    cases hok
  | some x, none =>
    rw [process_invalid_none_right] at hok
    cases hok
  | some x, some y =>
    by_cases hx : x = ""
    · rw [process_invalid_empty g t x y (Or.inl hx)] at hok
      cases hok
    · by_cases hy : y = ""
      · rw [process_invalid_empty g t x y (Or.inr hy)] at hok
        cases hok
      · by_cases hxy : x = y
        · subst hxy
          rw [process_invalid_same g t x hx] at hok
          cases hok
        · rcases process_valid_spec g t x y hInv hx hy hxy with ⟨g2, heq, hinv⟩
          rw [heq] at hok
          injection hok with h
          rw [← h]
          exact hinv

theorem reachable_inv : ∀ {g : TxGraph}, Reachable g → Inv g := by
  intro g h
  induction h with
  | init => exact inv_init
  | step g g' t a b _ hok ih => exact process_ok_inv g g' t a b ih hok

theorem process_error_state (g : TxGraph) (t : Int) (a b : Option String)
    (e : PErr) (g2 : TxGraph) (hInv : Inv g)
    (herr : g.process_transaction t a b = .error (e, g2)) :
    g2 = g ∧ (e = .invalidNode ∨ e = .sameNode) ∧ ¬ ValidIn a b := by
  match a, b with
  | none, b =>
    rw [process_invalid_none_left] at herr
    injection herr with h
    injection h with h1 h2
    refine ⟨h2.symm, Or.inl h1.symm, ?_⟩
    rintro ⟨x, y, hax, _, _⟩
    cases hax
  | some x, none =>
    rw [process_invalid_none_right] at herr
    injection herr with h
    injection h with h1 h2
    refine ⟨h2.symm, Or.inl h1.symm, ?_⟩
    rintro ⟨x', y', hax, hay, _⟩
    cases hay
  | some x, some y =>
    by_cases hx : x = ""
    · rw [process_invalid_empty g t x y (Or.inl hx)] at herr
      injection herr with h
      injection h with h1 h2
      refine ⟨h2.symm, Or.inl h1.symm, ?_⟩
      rintro ⟨x', y', hax, _, hx', _, _⟩
      injection hax with hax'
      exact hx' (hax'.symm.trans hx)
    · by_cases hy : y = ""
      · rw [process_invalid_empty g t x y (Or.inr hy)] at herr
        injection herr with h
        injection h with h1 h2
        refine ⟨h2.symm, Or.inl h1.symm, ?_⟩
        rintro ⟨x', y', hax, hay, _, hy', _⟩
        injection hay with hay'
        exact hy' (hay'.symm.trans hy)
      · by_cases hxy : x = y
        · subst hxy
          rw [process_invalid_same g t x hx] at herr
          injection herr with h
          injection h with h1 h2
          refine ⟨h2.symm, Or.inr h1.symm, ?_⟩
          rintro ⟨x', y', hax, hay, _, _, hxy'⟩
          injection hax with hax'
          injection hay with hay'
          exact hxy' (hax'.symm.trans hay')
        · rcases process_valid_spec g t x y hInv hx hy hxy with ⟨g3, heq, _⟩
          rw [heq] at herr
          cases herr

theorem process_error_iff (g : TxGraph) (t : Int) (a b : Option String) (hInv : Inv g) :
    (∃ e g2, g.process_transaction t a b = .error (e, g2)) ↔ ¬ ValidIn a b := by
  constructor
  · rintro ⟨e, g2, herr⟩
    exact (process_error_state g t a b e g2 hInv herr).2.2
  · intro hnv
    match a, b with
    | none, b => exact ⟨.invalidNode, g, process_invalid_none_left g t b⟩
    | some x, none => exact ⟨.invalidNode, g, process_invalid_none_right g t x⟩
    | some x, some y =>
      by_cases hx : x = ""
      · exact ⟨.invalidNode, g, process_invalid_empty g t x y (Or.inl hx)⟩
      · by_cases hy : y = ""
        · exact ⟨.invalidNode, g, process_invalid_empty g t x y (Or.inr hy)⟩
        · by_cases hxy : x = y
          · subst hxy
            exact ⟨.sameNode, g, process_invalid_same g t x hx⟩
          · exact absurd ⟨x, y, rfl, rfl, hx, hy, hxy⟩ hnv

/- a driver loop feeding a list of transactions in order -/
def processAll (g : TxGraph) :
    List (Int × Option String × Option String) → Except (PErr × TxGraph) TxGraph
  | [] => .ok g
  | t :: rest =>
    match g.process_transaction t.1 t.2.1 t.2.2 with
    | .error e => .error e
    | .ok g1 => processAll g1 rest

theorem processAll_reachable :
    ∀ (txs : List (Int × Option String × Option String)) (g g' : TxGraph),
    Reachable g → processAll g txs = .ok g' → Reachable g' := by
  intro txs
  induction txs with
  | nil =>
    intro g g' hre hok
    injection hok with h
    rw [← h]
    exact hre
  | cons tx rest ih =>
    intro g g' hre hok
    simp only [processAll] at hok
    rcases heq : g.process_transaction tx.1 tx.2.1 tx.2.2 with e | g1
    · rw [heq] at hok
      cases hok
    · rw [heq] at hok
      exact ih g1 g' (Reachable.step g g1 tx.1 tx.2.1 tx.2.2 hre heq) hok


theorem countP_split {α : Type} (p f : α → Bool) :
    ∀ l : List α, l.countP p
      = (l.filter f).countP p + (l.filter (fun a => ! f a)).countP p := by
  intro l
  induction l with
  | nil => rfl
  | cons x xs ih =>
    cases hfx : f x <;> simp [List.countP_cons, List.filter_cons, hfx, ih] <;> omega

/-- C6: a transaction older than the window floor is silently ignored:
for every graph state and valid distinct non-empty parties, a call with
timestamp strictly below lowMarker returns without error and leaves the
whole state unchanged. -/
theorem stale_timestamp_silent_noop (g : TxGraph) (t : Int) (a b : String)
    (ha : a ≠ "") (hb : b ≠ "") (hab : a ≠ b) (ht : t < g.lowMarker) :
    g.process_transaction t (some a) (some b) = .ok g := by
  have hlena : ¬ a.length = 0 := by
    rw [String.length_zero_iff]
    exact ha
  have hlenb : ¬ b.length = 0 := by
    rw [String.length_zero_iff]
    exact hb
  have hlen : ¬ (a.length = 0 ∨ b.length = 0) := by
    push_neg
    exact ⟨hlena, hlenb⟩
  simp [TxGraph.process_transaction, hlen, hab, ht]

theorem stale_timestamp_silent_noop_witness :
    TxGraph.init.process_transaction 0 (some "a") (some "b") = .ok TxGraph.init :=
  stale_timestamp_silent_noop TxGraph.init 0 "a" "b" (by decide) (by decide) (by decide)
    (by decide)

/-- C4: refresh is idempotent: resending a transaction for an existing
edge with an equal or older timestamp (within the window) is a complete
no-op, and more generally the refresh procedure never moves an edge's
timestamp backward. -/
theorem refresh_idempotent :
    (∀ (g : TxGraph) (t : Int) (a b : String) (e : Edge),
      a ≠ "" → b ≠ "" → a ≠ b →
      OMap.lookup (Edge.derive_name a b) g.edgeMap = some e →
      g.lowMarker ≤ t → t ≤ g.highMarker → t ≤ e.tstamp →
      g.process_transaction t (some a) (some b) = .ok g) ∧
    (∀ (g : TxGraph) (name : String) (t : Int) (e : Edge),
      OMap.lookup name g.edgeMap = some e → t ≤ e.tstamp →
      g.update_tstamp_for_existing_edge name t = .ok g) := by
  constructor
  · intro g t a b e ha hb hab hl hlow hhigh hle
    have hlena : ¬ a.length = 0 := by
      rw [String.length_zero_iff]
      exact ha
    have hlenb : ¬ b.length = 0 := by
      rw [String.length_zero_iff]
      exact hb
    have hlen : ¬ (a.length = 0 ∨ b.length = 0) := by
      push_neg
      exact ⟨hlena, hlenb⟩
    have hstale : ¬ (t < g.lowMarker) := not_lt.mpr hlow
    have hmkname : (Edge.make t a b).name = Edge.derive_name a b := Edge.make_name t a b
    have hfound : OMap.lookup (Edge.make t a b).name g.edgeMap = some e := by
      rw [hmkname]
      exact hl
    simp only [TxGraph.process_transaction, if_neg hlen, if_neg hab, if_neg hstale,
      if_pos hhigh, hfound, Option.isSome_some, if_true]
    exact update_tstamp_noop g (Edge.make t a b).name t e hfound hle
  · intro g name t e hl hle
    exact update_tstamp_noop g name t e hl hle

def c4edge : Edge := { tstamp := 5, source := "a", target := "b", name := "a:b" }

def c4graph : TxGraph :=
  { median := 1, highMarker := 60, lowMarker := 1, txMap := [(5, { tstamp := 5, edges := [("a:b", c4edge)] })], edgeMap := [("a:b", c4edge)], nodeMap := [("a", { name := "a", degree := 1 }), ("b", { name := "b", degree := 1 })] }

theorem refresh_idempotent_witness :
    c4graph.process_transaction 3 (some "a") (some "b") = .ok c4graph ∧
    c4graph.update_tstamp_for_existing_edge "a:b" 5 = .ok c4graph :=
  ⟨refresh_idempotent.1 c4graph 3 "a" "b" c4edge (by decide) (by decide) (by decide)
      (by decide) (by decide) (by decide) (by decide),
   refresh_idempotent.2 c4graph "a:b" 5 c4edge (by decide) (by decide)⟩


def c10g1 : TxGraph :=
  (TxGraph.init.process_transaction 1 (some "a") (some "b")).toOption.getD TxGraph.init

def c10g2 : TxGraph :=
  (c10g1.process_transaction 2 (some "a") (some "b")).toOption.getD TxGraph.init

def c10g3 : TxGraph :=
  (c10g2.process_transaction 62 (some "c") (some "d")).toOption.getD TxGraph.init

/-- C10: emptied buckets persist: refreshing the only edge of a bucket
leaves that bucket behind with an empty edge list (it is not deleted at
the moment it becomes empty), and only a later window advance whose new
lowMarker passes its timestamp evicts it. -/
theorem empty_bucket_persists :
    (TxGraph.init.process_transaction 1 (some "a") (some "b")).isOk = true ∧
    (c10g1.process_transaction 2 (some "a") (some "b")).isOk = true ∧
    OMap.lookup 1 c10g2.txMap = some { tstamp := 1, edges := [] } ∧
    OMap.lookup 2 c10g2.txMap = some { tstamp := 2, edges := [("a:b", { tstamp := 2, source := "a", target := "b", name := "a:b" })] } ∧
    (c10g2.process_transaction 62 (some "c") (some "d")).isOk = true ∧
    OMap.lookup 1 c10g3.txMap = none ∧ c10g3.lowMarker = 3 := by
  decide



/-- C1: the cached median field of every reachable graph state equals the
spec median (middle element, or mean of the two middle elements) of the
sorted list of the strictly positive node degrees of the node index; on
the fresh graph the value is specMedian of the empty list, which is 0,
and specMedian matches the worked examples of the spec. -/
theorem median_cached_correct :
    (∀ g : TxGraph, Reachable g →
      ∃ l : List Int, l.Sorted (· ≤ ·) ∧
        List.Perm l ((g.nodeMap.map (fun r => r.2.degree)).filter (fun d => decide (0 < d))) ∧
        g.median = specMedian l) ∧
    TxGraph.init.median = specMedian [] ∧ specMedian [] = 0 ∧
    specMedian [1, 2, 3] = 2 ∧ specMedian [1, 2, 3, 4] = 5 / 2 := by
  refine ⟨?_, ?_, specMedian_nil, ?_, ?_⟩
  · intro g hre
    obtain ⟨_, _, hmed⟩ := reachable_inv hre
    exact ⟨buildDegreeList g.nodeMap, buildDegreeList_sorted _, buildDegreeList_perm _, hmed⟩
  · rw [specMedian_nil]
    rfl
  · simp only [specMedian]
    norm_num
  · simp only [specMedian]
    norm_num

theorem median_cached_correct_witness :
    ∃ l : List Int, l.Sorted (· ≤ ·) ∧
      List.Perm l
        ((TxGraph.init.nodeMap.map (fun r => r.2.degree)).filter (fun d => decide (0 < d))) ∧
      TxGraph.init.median = specMedian l :=
  median_cached_correct.1 TxGraph.init Reachable.init

/-- C5: on every reachable state, process_transaction raises exactly when
the input is invalid (a party missing, empty, or both parties equal); the
raised error is one of the two validation errors and the carried state is
the unchanged pre-call state, so a raising call mutates nothing. -/
theorem invalid_input_iff_atomic (g : TxGraph) (hre : Reachable g) (t : Int)
    (a b : Option String) :
    ((∃ e g2, g.process_transaction t a b = .error (e, g2)) ↔
      ¬ (∃ x y, a = some x ∧ b = some y ∧ x ≠ "" ∧ y ≠ "" ∧ x ≠ y)) ∧
    (∀ e g2, g.process_transaction t a b = .error (e, g2) →
      g2 = g ∧ (e = PErr.invalidNode ∨ e = PErr.sameNode)) := by
  have hInv := reachable_inv hre
  constructor
  · exact process_error_iff g t a b hInv
  · intro e g2 herr
    have h := process_error_state g t a b e g2 hInv herr
    exact ⟨h.1, h.2.1⟩

theorem invalid_input_iff_atomic_witness :
    ((∃ e g2, TxGraph.init.process_transaction 0 (some "alice") (some "alice")
        = .error (e, g2)) ↔
      ¬ (∃ x y, (some "alice" : Option String) = some x ∧
          (some "alice" : Option String) = some y ∧ x ≠ "" ∧ y ≠ "" ∧ x ≠ y)) ∧
    (∀ e g2, TxGraph.init.process_transaction 0 (some "alice") (some "alice")
        = .error (e, g2) →
      g2 = TxGraph.init ∧ (e = PErr.invalidNode ∨ e = PErr.sameNode)) :=
  invalid_input_iff_atomic TxGraph.init Reachable.init 0 (some "alice") (some "alice")

/-- C7: in every reachable state, every entry of the node index has a
strictly positive degree equal to the number of in-window edges incident
to it, and a node name is present in the index exactly when some edge of
the edge index has it as an endpoint. -/
theorem node_presence_iff_positive_degree (g : TxGraph) (hre : Reachable g) :
    (∀ r ∈ g.nodeMap, 0 < r.2.degree ∧ r.2.degree = (incid g.edgeMap r.1 : Int)) ∧
    (∀ name, (OMap.lookup name g.nodeMap).isSome ↔
      ∃ q ∈ g.edgeMap, q.2.source = name ∨ q.2.target = name) := by
  obtain ⟨hc, _, _⟩ := reachable_inv hre
  refine ⟨?_, ?_⟩
  · intro r hr
    have h := hc.degOk.1 r hr
    exact ⟨h.2.1, h.2.2⟩
  · intro name
    constructor
    · intro hs
      rcases Option.isSome_iff_exists.mp hs with ⟨n, hn⟩
      have hmem : (name, n) ∈ g.nodeMap := OMap.mem_of_lookup_eq_some hn
      have h := hc.degOk.1 (name, n) hmem
      have h1 : 0 < n.degree := h.2.1
      have h2 : n.degree = (incid g.edgeMap name : Int) := h.2.2
      have hpos : 0 < incid g.edgeMap name := by omega
      exact incid_pos_iff.mp hpos
    · rintro ⟨q, hq, hor⟩
      have h2 := hc.degOk.2 q hq
      cases hor with
      | inl h => rw [← h]; exact h2.1
      | inr h => rw [← h]; exact h2.2

theorem node_presence_iff_positive_degree_witness :
    (∀ r ∈ TxGraph.init.nodeMap, 0 < r.2.degree ∧
      r.2.degree = (incid TxGraph.init.edgeMap r.1 : Int)) ∧
    (∀ name, (OMap.lookup name TxGraph.init.nodeMap).isSome ↔
      ∃ q ∈ TxGraph.init.edgeMap, q.2.source = name ∨ q.2.target = name) :=
  node_presence_iff_positive_degree TxGraph.init Reachable.init

/-- C8: edge naming is canonical and undirected: building an edge from
the two parties in either order yields the same name, the derived name is
the lexicographically smaller party, a colon, then the larger; and in any
reachable state at most one edge exists per unordered pair of parties. -/
theorem canonical_edge_unique :
    (∀ (t : Int) (a b : String), a ≠ b → (Edge.make t a b).name = (Edge.make t b a).name) ∧
    (∀ a b : String, Edge.derive_name a b = min a b ++ ":" ++ max a b) ∧
    (∀ g : TxGraph, Reachable g → ∀ q1 ∈ g.edgeMap, ∀ q2 ∈ g.edgeMap,
      ((q1.2.source = q2.2.source ∧ q1.2.target = q2.2.target) ∨
       (q1.2.source = q2.2.target ∧ q1.2.target = q2.2.source)) → q1 = q2) := by
  refine ⟨?_, Edge.derive_name_min_max, ?_⟩
  · intro t a b hne
    rw [Edge.make_name, Edge.make_name]
    exact Edge.derive_name_comm a b hne
  · intro g hre q1 h1 q2 h2 hor
    obtain ⟨hc, _, _⟩ := reachable_inv hre
    obtain ⟨hn1, hlt1, hs1⟩ := hc.edgeCanon q1 h1
    obtain ⟨hn2, hlt2, hs2⟩ := hc.edgeCanon q2 h2
    have hst : q1.2.source = q2.2.source ∧ q1.2.target = q2.2.target := by
      cases hor with
      | inl h => exact h
      | inr h =>
        exfalso
        have hswap : q2.2.target < q2.2.source := by
          rw [← h.1, ← h.2]
          exact hlt1
        exact absurd hlt2 (not_lt.mpr (le_of_lt hswap))
    have hname : q1.2.name = q2.2.name := by rw [hs1, hs2, hst.1, hst.2]
    have hkey : q1.1 = q2.1 := by rw [← hn1, ← hn2, hname]
    have hknd := OMap.KSorted.knodup hc.edgeSorted
    have hl1 := OMap.lookup_of_mem_knodup hknd h1
    have hl2 := OMap.lookup_of_mem_knodup hknd h2
    rw [hkey] at hl1
    rw [hl2] at hl1
    have hval : q2.2 = q1.2 := by injection hl1
    exact Prod.ext hkey hval.symm

theorem canonical_edge_unique_witness :
    (Edge.make 1 "b" "a").name = (Edge.make 1 "a" "b").name ∧
    Edge.derive_name "b" "a" = min "b" "a" ++ ":" ++ max "b" "a" ∧
    (∀ q1 ∈ TxGraph.init.edgeMap, ∀ q2 ∈ TxGraph.init.edgeMap,
      ((q1.2.source = q2.2.source ∧ q1.2.target = q2.2.target) ∨
       (q1.2.source = q2.2.target ∧ q1.2.target = q2.2.source)) → q1 = q2) :=
  ⟨canonical_edge_unique.1 1 "b" "a" (by decide), canonical_edge_unique.2.1 "b" "a",
   canonical_edge_unique.2.2 TxGraph.init Reachable.init⟩



def c9edge : Edge := { tstamp := 5, source := "a", target := "b", name := "a:b" }

def c9graph : TxGraph :=
  { median := 1, highMarker := 60, lowMarker := 1, txMap := [(5, { tstamp := 5, edges := [("a:b", c9edge)] })], edgeMap := [("a:b", c9edge)], nodeMap := [("a", { name := "a", degree := 1 }), ("b", { name := "b", degree := 1 })] }

/-- C9: bucket membership: in every reachable state each edge of the edge
index sits in exactly the bucket of its own timestamp (and in no other
bucket), and an in-window refresh with a strictly newer timestamp moves
the edge out of its old bucket (which shrinks by one and no longer holds
the edge) into the bucket at the new timestamp. -/
theorem bucket_membership (g : TxGraph) (hre : Reachable g) :
    (∀ q ∈ g.edgeMap, ∃ el, OMap.lookup q.2.tstamp g.txMap = some el ∧
      OMap.lookup q.1 el.edges = some q.2 ∧
      ∀ p ∈ g.txMap, (OMap.lookup q.1 p.2.edges).isSome → p.1 = q.2.tstamp) ∧
    (∀ (name : String) (t : Int) (e : Edge),
      OMap.lookup name g.edgeMap = some e → e.tstamp < t → t ≤ g.highMarker →
      ∃ g', g.update_tstamp_for_existing_edge name t = .ok g' ∧
        (∃ elOld el', OMap.lookup e.tstamp g.txMap = some elOld ∧
          OMap.lookup e.tstamp g'.txMap = some el' ∧
          elOld.edges.length = el'.edges.length + 1 ∧
          OMap.lookup name el'.edges = none) ∧
        (∃ el2, OMap.lookup t g'.txMap = some el2 ∧
          OMap.lookup name el2.edges = some { e with tstamp := t })) := by
  obtain ⟨hc, hw, _⟩ := reachable_inv hre
  constructor
  · intro q hq
    obtain ⟨el, hel, helq⟩ := hc.edgeInBucket q hq
    refine ⟨el, hel, helq, ?_⟩
    intro p hp hsome
    rcases Option.isSome_iff_exists.mp hsome with ⟨e', he'⟩
    have hmem' : (q.1, e') ∈ p.2.edges := OMap.mem_of_lookup_eq_some he'
    have hbe := hc.bucketEdge p hp (q.1, e') hmem'
    have hknd := OMap.KSorted.knodup hc.edgeSorted
    have hlq := OMap.lookup_of_mem_knodup hknd hq
    have hveq : e' = q.2 := by
      rw [hbe.2.2] at hlq
      exact Option.some.inj hlq
    have hts : e'.tstamp = p.1 := hbe.2.1
    rw [hveq] at hts
    exact hts.symm
  · intro name t e hl ht hth
    have hmm : (name, e) ∈ g.edgeMap := OMap.mem_of_lookup_eq_some hl
    obtain ⟨el, hel, _⟩ := hc.edgeInBucket (name, e) hmm
    have hbp := hc.bucketPos (e.tstamp, el) (OMap.mem_of_lookup_eq_some hel)
    have hpos : 1 ≤ t := by
      have hbp' : 1 ≤ e.tstamp := hbp
      omega
    obtain ⟨g', hrun, _, _, _, _, _, _, _, hold, hnew⟩ :=
      update_tstamp_spec g name t e hc hpos hl ht
    obtain ⟨elOld, el', ho1, ho2, _, ho4, ho5⟩ := hold
    exact ⟨g', hrun, ⟨elOld, el', ho1, ho2, ho4, ho5⟩, hnew⟩

theorem bucket_membership_witness :
    (∀ q ∈ c9graph.edgeMap, ∃ el, OMap.lookup q.2.tstamp c9graph.txMap = some el ∧
      OMap.lookup q.1 el.edges = some q.2 ∧
      ∀ p ∈ c9graph.txMap, (OMap.lookup q.1 p.2.edges).isSome → p.1 = q.2.tstamp) ∧
    (∀ (name : String) (t : Int) (e : Edge),
      OMap.lookup name c9graph.edgeMap = some e → e.tstamp < t → t ≤ c9graph.highMarker →
      ∃ g', c9graph.update_tstamp_for_existing_edge name t = .ok g' ∧
        (∃ elOld el', OMap.lookup e.tstamp c9graph.txMap = some elOld ∧
          OMap.lookup e.tstamp g'.txMap = some el' ∧
          elOld.edges.length = el'.edges.length + 1 ∧
          OMap.lookup name el'.edges = none) ∧
        (∃ el2, OMap.lookup t g'.txMap = some el2 ∧
          OMap.lookup name el2.edges = some { e with tstamp := t })) :=
  bucket_membership c9graph
    (Reachable.step TxGraph.init c9graph 5 (some "a") (some "b") Reachable.init (by decide))

def gC3 : TxGraph :=
  (processAll TxGraph.init [(1, some "a", some "b")]).toOption.getD TxGraph.init

/-- C3: after feeding any strictly-increasing-timestamp transaction
sequence from the fresh graph without error, the node index holds exactly
the endpoints of the edges currently in the edge index, and every such
edge's timestamp lies inside the current window. -/
theorem node_index_matches_window (txs : List (Int × Option String × Option String))
    (hinc : List.Chain' (fun u v : Int × Option String × Option String => u.1 < v.1) txs)
    (g' : TxGraph) (hok : processAll TxGraph.init txs = .ok g') :
    (∀ name, (OMap.lookup name g'.nodeMap).isSome ↔
      ∃ q ∈ g'.edgeMap, q.2.source = name ∨ q.2.target = name) ∧
    (∀ q ∈ g'.edgeMap, g'.lowMarker ≤ q.2.tstamp ∧ q.2.tstamp ≤ g'.highMarker) := by
  have hre := processAll_reachable txs TxGraph.init g' Reachable.init hok
  obtain ⟨hc, hw, _⟩ := reachable_inv hre
  constructor
  · intro name
    constructor
    · intro hs
      rcases Option.isSome_iff_exists.mp hs with ⟨n, hn⟩
      have hmem : (name, n) ∈ g'.nodeMap := OMap.mem_of_lookup_eq_some hn
      have h := hc.degOk.1 (name, n) hmem
      have h1 : 0 < n.degree := h.2.1
      have h2 : n.degree = (incid g'.edgeMap name : Int) := h.2.2
      have hpos : 0 < incid g'.edgeMap name := by omega
      exact incid_pos_iff.mp hpos
    · rintro ⟨q, hq, hor⟩
      have h2 := hc.degOk.2 q hq
      cases hor with
      | inl h => rw [← h]; exact h2.1
      | inr h => rw [← h]; exact h2.2
  · intro q hq
    obtain ⟨el, hel, _⟩ := hc.edgeInBucket q hq
    have hmem := OMap.mem_of_lookup_eq_some hel
    exact ⟨hw.bucketLow (q.2.tstamp, el) hmem, hw.bucketHigh (q.2.tstamp, el) hmem⟩

theorem node_index_matches_window_witness :
    (∀ name, (OMap.lookup name gC3.nodeMap).isSome ↔
      ∃ q ∈ gC3.edgeMap, q.2.source = name ∨ q.2.target = name) ∧
    (∀ q ∈ gC3.edgeMap, gC3.lowMarker ≤ q.2.tstamp ∧ q.2.tstamp ≤ gC3.highMarker) :=
  node_index_matches_window [(1, some "a", some "b")] (by simp) gC3 (by decide)



def txsC2 : List (Int × Option String × Option String) :=
  (List.range 61).map (fun i => ((i + 1 : Int), some ("a" ++ toString i), some ("b" ++ toString i)))

def gC2 : TxGraph := (processAll TxGraph.init txsC2).toOption.getD TxGraph.init

set_option maxRecDepth 1000000 in
/-- C2: eviction on window advance: whenever a transaction newer than
highMarker arrives, after the markers move to the new window exactly the
buckets strictly below the new lowMarker are dropped from the bucket map
(the bucket at lowMarker itself is retained), exactly the edges with
stale timestamps leave the edge index, each surviving node loses one
degree per evicted incident edge, and nodes whose degree reaches zero
disappear while no new node appears; concretely, feeding timestamps
1..60 and then 61 from the fresh graph yields window [2,61] and evicts
exactly the timestamp-1 edge with its two endpoints. -/
theorem eviction_on_window_advance :
    (∀ (g : TxGraph) (t : Int), Reachable g → g.highMarker < t →
      ∃ nm, ({ g with highMarker := t, lowMarker := t - TxGraph.WINDOW_SIZE + 1 } : TxGraph).update_tx_window = .ok { g with highMarker := t, lowMarker := t - TxGraph.WINDOW_SIZE + 1, txMap := g.txMap.filter (fun p => decide (t - TxGraph.WINDOW_SIZE + 1 ≤ p.1)), edgeMap := g.edgeMap.filter (fun q => decide (t - TxGraph.WINDOW_SIZE + 1 ≤ q.2.tstamp)), nodeMap := nm } ∧
        (∀ (j : String) (n0 : Node), OMap.lookup j g.nodeMap = some n0 →
          (OMap.lookup j nm = none ∧
            n0.degree = (incid (g.edgeMap.filter (fun q => decide (q.2.tstamp < t - TxGraph.WINDOW_SIZE + 1))) j : Int)) ∨
          (∃ n, OMap.lookup j nm = some n ∧ 0 < n.degree ∧
            n.degree + (incid (g.edgeMap.filter (fun q => decide (q.2.tstamp < t - TxGraph.WINDOW_SIZE + 1))) j : Int) = n0.degree)) ∧
        (∀ j, (OMap.lookup j nm).isSome → (OMap.lookup j g.nodeMap).isSome)) ∧
    ((processAll TxGraph.init txsC2).isOk = true ∧ gC2.lowMarker = 2 ∧ gC2.highMarker = 61 ∧
      OMap.lookup "a0:b0" gC2.edgeMap = none ∧ OMap.lookup "a0" gC2.nodeMap = none ∧
      OMap.lookup "b0" gC2.nodeMap = none ∧ gC2.edgeMap.length = 60 ∧
      OMap.lookup "a1:b1" gC2.edgeMap = some { tstamp := 2, source := "a1", target := "b1", name := "a1:b1" } ∧
      OMap.lookup 1 gC2.txMap = none ∧ (OMap.lookup 2 gC2.txMap).isSome = true) := by
  constructor
  · intro g t hre hlt
    obtain ⟨hc, hw, _⟩ := reachable_inv hre
    have hc0 : InvCore ({ g with highMarker := t, lowMarker := t - TxGraph.WINDOW_SIZE + 1 } : TxGraph) :=
      invcore_markers g t (t - TxGraph.WINDOW_SIZE + 1) hc
    obtain ⟨nm, hrun, hs, hd'⟩ :=
      update_tx_window_spec ({ g with highMarker := t, lowMarker := t - TxGraph.WINDOW_SIZE + 1 } : TxGraph) hc0
    refine ⟨nm, ?_, ?_, ?_⟩
    · rw [hrun]
    · intro j n0 hlook
      have hfacts := hc.degOk.1 (j, n0) (OMap.mem_of_lookup_eq_some hlook)
      have hn0pos : 0 < n0.degree := hfacts.2.1
      have hn0deg : n0.degree = (incid g.edgeMap j : Int) := hfacts.2.2
      have hconv : g.edgeMap.filter (fun q => ! decide (t - TxGraph.WINDOW_SIZE + 1 ≤ q.2.tstamp)) = g.edgeMap.filter (fun q => decide (q.2.tstamp < t - TxGraph.WINDOW_SIZE + 1)) := by
        apply List.filter_congr
        intro q hq
        rcases lt_or_le q.2.tstamp (t - TxGraph.WINDOW_SIZE + 1) with h | h
        · simp [h, not_le.mpr h]
        · simp [h, not_lt.mpr h]
      have hsplit : incid g.edgeMap j = incid (g.edgeMap.filter (fun q => decide (t - TxGraph.WINDOW_SIZE + 1 ≤ q.2.tstamp))) j + incid (g.edgeMap.filter (fun q => decide (q.2.tstamp < t - TxGraph.WINDOW_SIZE + 1))) j := by
        simp only [incid]
        rw [← hconv]
        exact countP_split (incidP j) (fun q => decide (t - TxGraph.WINDOW_SIZE + 1 ≤ q.2.tstamp)) g.edgeMap
      by_cases hnew : (OMap.lookup j nm).isSome
      · rcases Option.isSome_iff_exists.mp hnew with ⟨n, hn⟩
        have hf := hd'.1 (j, n) (OMap.mem_of_lookup_eq_some hn)
        have hnpos : 0 < n.degree := hf.2.1
        have hndeg : n.degree = (incid (g.edgeMap.filter (fun q => decide (t - TxGraph.WINDOW_SIZE + 1 ≤ q.2.tstamp))) j : Int) := hf.2.2
        right
        refine ⟨n, hn, hnpos, ?_⟩
        omega
      · left
        have hnone : OMap.lookup j nm = none := Option.not_isSome_iff_eq_none.mp hnew
        have hz : incid (g.edgeMap.filter (fun q => decide (t - TxGraph.WINDOW_SIZE + 1 ≤ q.2.tstamp))) j = 0 := by
          by_contra hnz
          rcases incid_pos_iff.mp (Nat.pos_of_ne_zero hnz) with ⟨q, hq, hor⟩
          have h2 := hd'.2 q hq
          cases hor with
          | inl h =>
            rw [h] at h2
            exact hnew h2.1
          | inr h =>
            rw [h] at h2
            exact hnew h2.2
        refine ⟨hnone, ?_⟩
        omega
    · intro j hs2
      rcases Option.isSome_iff_exists.mp hs2 with ⟨n, hn⟩
      have hf := hd'.1 (j, n) (OMap.mem_of_lookup_eq_some hn)
      have hnpos : 0 < n.degree := hf.2.1
      have hndeg : n.degree = (incid (g.edgeMap.filter (fun q => decide (t - TxGraph.WINDOW_SIZE + 1 ≤ q.2.tstamp))) j : Int) := hf.2.2
      have hpos : 0 < incid (g.edgeMap.filter (fun q => decide (t - TxGraph.WINDOW_SIZE + 1 ≤ q.2.tstamp))) j := by omega
      rcases incid_pos_iff.mp hpos with ⟨q, hq, hor⟩
      have hq' : q ∈ g.edgeMap := List.mem_of_mem_filter hq
      have h2 := hc.degOk.2 q hq'
      cases hor with
      | inl h =>
        rw [← h]
        exact h2.1
      | inr h =>
        rw [← h]
        exact h2.2
  · decide

theorem eviction_on_window_advance_witness :
    ∃ nm, ({ TxGraph.init with highMarker := 61, lowMarker := 61 - TxGraph.WINDOW_SIZE + 1 } : TxGraph).update_tx_window = .ok { TxGraph.init with highMarker := 61, lowMarker := 61 - TxGraph.WINDOW_SIZE + 1, txMap := TxGraph.init.txMap.filter (fun p => decide (61 - TxGraph.WINDOW_SIZE + 1 ≤ p.1)), edgeMap := TxGraph.init.edgeMap.filter (fun q => decide (61 - TxGraph.WINDOW_SIZE + 1 ≤ q.2.tstamp)), nodeMap := nm } ∧
      (∀ (j : String) (n0 : Node), OMap.lookup j TxGraph.init.nodeMap = some n0 →
        (OMap.lookup j nm = none ∧
          n0.degree = (incid (TxGraph.init.edgeMap.filter (fun q => decide (q.2.tstamp < 61 - TxGraph.WINDOW_SIZE + 1))) j : Int)) ∨
        (∃ n, OMap.lookup j nm = some n ∧ 0 < n.degree ∧
          n.degree + (incid (TxGraph.init.edgeMap.filter (fun q => decide (q.2.tstamp < 61 - TxGraph.WINDOW_SIZE + 1))) j : Int) = n0.degree)) ∧
      (∀ j, (OMap.lookup j nm).isSome → (OMap.lookup j TxGraph.init.nodeMap).isSome) :=
  eviction_on_window_advance.1 TxGraph.init 61 Reachable.init (by decide)


end Insight
